import Mathlib

/-!
Verification of the download-and-decryption core of `offload-disk-client`
(`src/src-tauri/src/main.rs`), as a shallow embedding in Lean 4.

Bytes are modelled as `Nat` (values below 256 for real data; none of the
statements need the bound except where noted).  External vetted libraries
used by the source are abstracted as parameters:
  * `aes`    : AES-256 block encryption (the `aes` crate), as a function
               from key and 16-byte block to 16-byte block;
  * `gfMul`  : the GF(2^128) multiplication of the `ghash` crate;
  * `b64`    : base64 decoding (the `base64` crate), `Except` so that the
               decode-error string can propagate as in `map_err(e.to_string())`;
  * `extractZip` : the `zip`-crate single-entry extraction used by
               `extract_zip_entry`, as a function from container bytes and
               entry index to the entry's bytes.
SHA-256 (the `sha2` crate) is modelled concretely, because part-hash
verification compares digests of concrete byte strings.

Filesystem state relevant to the claims is the content of the decrypt
intermediate (`decrypt_target`) and of the final output path, modelled by
`FS`.  The asynchronous download driver is modelled as a deterministic
function of an oracle (`IterOracle` per part) that fixes every outcome the
environment chooses: the cancellation flag at each observation point, the
HTTP responses of direct/relay/refresh requests, and the clock readings.
-/

/-! ## Byte-level utilities -/

/-- Big-endian interpretation of a byte list as a natural number. -/
def beBytesToNat (l : List Nat) : Nat := l.foldl (fun a b => a * 256 + b) 0

/-- Big-endian encoding of `n` into `len` bytes (truncating above `256^len`). -/
def natToBeBytes (n : Nat) : Nat → List Nat
  | 0 => []
  | len + 1 => natToBeBytes (n / 256) len ++ [n % 256]

/-- Pointwise XOR of two byte lists (as in XORing two 16-byte blocks). -/
def xorB (a b : List Nat) : List Nat := List.zipWith (· ^^^ ·) a b

/-- Split a byte list into its full 16-byte blocks and the remainder
(the `while rem.len() >= 16` drain loop of `ghash_update`). -/
def splitBlocks : List Nat → List (List Nat) × List Nat
  | b0 :: b1 :: b2 :: b3 :: b4 :: b5 :: b6 :: b7 :: b8 :: b9 :: b10 :: b11 :: b12 :: b13 :: b14 :: b15 :: rest =>
    let p := splitBlocks rest
    ([b0, b1, b2, b3, b4, b5, b6, b7, b8, b9, b10, b11, b12, b13, b14, b15] :: p.1, p.2)
  | l => ([], l)

/-- Zero-pad a residual (fewer than 16 bytes) to a full 16-byte block,
as in `ghash_finalize`'s `block[..rem.len()].copy_from_slice(rem)`. -/
def padTo16 (r : List Nat) : List Nat := r ++ List.replicate (16 - r.length) 0

/-- Split a list into chunks of `k` bytes (helper; `acc` is the reversed
current chunk, the last argument the remaining budget of the chunk). -/
def chunksAcc (k : Nat) : List Nat → List Nat → Nat → List (List Nat)
  | [], acc, _ => if acc.isEmpty then [] else [acc.reverse]
  | b :: rest, acc, 0 => acc.reverse :: chunksAcc k rest [b] (k - 1)
  | b :: rest, acc, n + 1 => chunksAcc k rest (b :: acc) n

/-- Split a list into consecutive chunks of at most `k` bytes. -/
def chunksOfSize (k : Nat) (l : List Nat) : List (List Nat) := chunksAcc k l [] k

/-- The read loop of `decrypt_parts` consumes each part file through a
1 MiB buffer; a part's bytes therefore arrive in windows of at most
`1024 * 1024` bytes. -/
def chunksOf1M (l : List Nat) : List (List Nat) := chunksOfSize (1024 * 1024) l

/-- Apply a keystream (indexed by absolute byte offset) to data starting at
offset `off`: the effect of `ctr.apply_keystream` on one window, given the
stream position reached so far. -/
def ctrApply (ks : Nat → Nat) (off : Nat) : List Nat → List Nat
  | [] => []
  | b :: rest => (b ^^^ ks off) :: ctrApply ks (off + 1) rest

/-- Fold of the `ghash` crate's `update` over a list of 16-byte blocks:
each block `x` maps the accumulator `y` to `(y XOR x) * H`. -/
def ghFold (mul : List Nat → List Nat → List Nat) (h : List Nat)
    (y : List Nat) (blocks : List (List Nat)) : List Nat :=
  blocks.foldl (fun acc b => mul (xorB acc b) h) y

/-- The final GHASH length block: 8 zero bytes (no AAD) followed by the
ciphertext bit length as a big-endian `u64`. -/
def lenBlock (cipherLen : Nat) : List Nat :=
  List.replicate 8 0 ++ natToBeBytes (cipherLen * 8 % 2 ^ 64) 8

/-! ## SHA-256 (the `sha2` crate, modelled concretely) -/

/-- 32-bit right rotation. -/
def rotr32 (n x : Nat) : Nat := ((x >>> n) ||| (x <<< (32 - n))) % 2 ^ 32

/-- The 64 SHA-256 round constants (decimal). -/
def shaK : List Nat :=
  [1116352408, 1899447441, 3049323471, 3921009573,
   961987163, 1508970993, 2453635748, 2870763221,
   3624381080, 310598401, 607225278, 1426881987,
   1925078388, 2162078206, 2614888103, 3248222580,
   3835390401, 4022224774, 264347078, 604807628,
   770255983, 1249150122, 1555081692, 1996064986,
   2554220882, 2821834349, 2952996808, 3210313671,
   3336571891, 3584528711, 113926993, 338241895,
   666307205, 773529912, 1294757372, 1396182291,
   1695183700, 1986661051, 2177026350, 2456956037,
   2730485921, 2820302411, 3259730800, 3345764771,
   3516065817, 3600352804, 4094571909, 275423344,
   430227734, 506948616, 659060556, 883997877,
   958139571, 1322822218, 1537002063, 1747873779,
   1955562222, 2024104815, 2227730452, 2361852424,
   2428436474, 2756734187, 3204031479, 3329325298]

/-- The SHA-256 initial hash value (decimal). -/
def shaInit : List Nat :=
  [1779033703, 3144134277, 1013904242, 2773480762,
   1359893119, 2600822924, 528734635, 1541459225]

/-- SHA-256 small sigma 0. -/
def ssig0 (x : Nat) : Nat := rotr32 7 x ^^^ rotr32 18 x ^^^ (x >>> 3)

/-- SHA-256 small sigma 1. -/
def ssig1 (x : Nat) : Nat := rotr32 17 x ^^^ rotr32 19 x ^^^ (x >>> 10)

/-- SHA-256 big sigma 0. -/
def bsig0 (x : Nat) : Nat := rotr32 2 x ^^^ rotr32 13 x ^^^ rotr32 22 x

/-- SHA-256 big sigma 1. -/
def bsig1 (x : Nat) : Nat := rotr32 6 x ^^^ rotr32 11 x ^^^ rotr32 25 x

/-- Group bytes into big-endian 32-bit words. -/
def bytesToWords : List Nat → List Nat
  | a :: b :: c :: d :: rest => (((a * 256 + b) * 256 + c) * 256 + d) :: bytesToWords rest
  | _ => []

/-- Extend the 16-word message schedule by `n` further words. -/
def extendW : Nat → List Nat → List Nat
  | 0, w => w
  | n + 1, w =>
    let t := (ssig1 (w.getD (w.length - 2) 0) + w.getD (w.length - 7) 0 +
              ssig0 (w.getD (w.length - 15) 0) + w.getD (w.length - 16) 0) % 2 ^ 32
    extendW n (w ++ [t])

/-- The eight SHA-256 working registers. -/
structure Sha8 where
  a : Nat
  b : Nat
  c : Nat
  d : Nat
  e : Nat
  f : Nat
  g : Nat
  h : Nat

/-- One SHA-256 compression round, consuming a round constant and a
schedule word. -/
def compressStep (st : Sha8) (kw : Nat × Nat) : Sha8 :=
  let ch := (st.e &&& st.f) ^^^ ((st.e ^^^ (2 ^ 32 - 1)) &&& st.g)
  let maj := (st.a &&& st.b) ^^^ (st.a &&& st.c) ^^^ (st.b &&& st.c)
  let t1 := (st.h + bsig1 st.e + ch + kw.1 + kw.2) % 2 ^ 32
  let t2 := (bsig0 st.a + maj) % 2 ^ 32
  { a := (t1 + t2) % 2 ^ 32, b := st.a, c := st.b, d := st.c,
    e := (st.d + t1) % 2 ^ 32, f := st.e, g := st.f, h := st.g }

/-- SHA-256 compression of one 64-byte block into the running hash. -/
def shaCompress (hs : List Nat) (block : List Nat) : List Nat :=
  let w := extendW 48 (bytesToWords block)
  let st0 : Sha8 :=
    { a := hs.getD 0 0, b := hs.getD 1 0, c := hs.getD 2 0, d := hs.getD 3 0,
      e := hs.getD 4 0, f := hs.getD 5 0, g := hs.getD 6 0, h := hs.getD 7 0 }
  let st := (shaK.zip w).foldl compressStep st0
  [(hs.getD 0 0 + st.a) % 2 ^ 32, (hs.getD 1 0 + st.b) % 2 ^ 32, (hs.getD 2 0 + st.c) % 2 ^ 32,
   (hs.getD 3 0 + st.d) % 2 ^ 32, (hs.getD 4 0 + st.e) % 2 ^ 32, (hs.getD 5 0 + st.f) % 2 ^ 32,
   (hs.getD 6 0 + st.g) % 2 ^ 32, (hs.getD 7 0 + st.h) % 2 ^ 32]

/-- SHA-256 padding: `0x80`, zeros to 56 mod 64, then the bit length as a
big-endian `u64`. -/
def shaPad (msg : List Nat) : List Nat :=
  let len := msg.length
  let zeros := (64 + 56 - (len + 1) % 64) % 64
  msg ++ [0x80] ++ List.replicate zeros 0 ++ natToBeBytes (len * 8 % 2 ^ 64) 8

/-- The eight 32-bit words of the SHA-256 digest of a byte string. -/
def shaWords (msg : List Nat) : List Nat :=
  (chunksOfSize 64 (shaPad msg)).foldl shaCompress shaInit

/-- The 32 digest bytes of SHA-256. -/
def shaBytes (msg : List Nat) : List Nat :=
  (shaWords msg).flatMap (fun w => natToBeBytes w 4)

/-- Lowercase hexadecimal digit. -/
def hexChar (n : Nat) : Char := "0123456789abcdef".data.getD n '0'

/-- Lowercase hexadecimal rendering of one 32-bit word. -/
def wordToHex (w : Nat) : List Char :=
  [hexChar (w / 16 ^ 7 % 16), hexChar (w / 16 ^ 6 % 16), hexChar (w / 16 ^ 5 % 16),
   hexChar (w / 16 ^ 4 % 16), hexChar (w / 16 ^ 3 % 16), hexChar (w / 16 ^ 2 % 16),
   hexChar (w / 16 % 16), hexChar (w % 16)]

/-- Lowercase-hex SHA-256 digest of a byte string: `format!("{:x}", hasher.finalize())`. -/
def sha256Hex (msg : List Nat) : String := String.mk ((shaWords msg).flatMap wordToHex)

/-- UTF-8 bytes of a string, for `master_key.as_bytes()`. -/
def strBytes (s : String) : List Nat := s.toUTF8.toList.map (fun b => b.toNat)

/-- `derive_key`: the 32-byte AES key is SHA-256 of the master-key string. -/
def derive_key (master_key : String) : List Nat := shaBytes (strBytes master_key)

/-! ## Filename sanitizer (`sanitize_filename`)

Rust strings are UTF-8; we model them as `List Char` with `byteLen` the
UTF-8 length.  `String::truncate` panics when the cut is not on a char
boundary, so the sanitizer returns `Option`: `none` models the panic.
Rust's `str::to_uppercase` is modelled by the ASCII-only `Char.toUpper`;
the two agree on every comparison against the ASCII reserved names that
the function performs, and on all concrete inputs used below. -/

/-- The characters `< > : " / \ | ? *` replaced by `_` in step 1. -/
def invalidChar (c : Char) : Bool :=
  c == '<' || c == '>' || c == ':' || c == '"' || c == '/' || c == '\\' ||
  c == '|' || c == '?' || c == '*'

/-- The Windows-reserved device names. -/
def reservedNames : List String :=
  ["CON", "PRN", "AUX", "NUL", "COM1", "COM2", "COM3", "COM4", "COM5", "COM6",
   "COM7", "COM8", "COM9", "LPT1", "LPT2", "LPT3", "LPT4", "LPT5", "LPT6",
   "LPT7", "LPT8", "LPT9"]

/-- Does the second list start with the first (`str::starts_with`)? -/
def startsWithList : List Char → List Char → Bool
  | [], _ => true
  | _ :: _, [] => false
  | p :: ps, c :: cs => p == c && startsWithList ps cs

/-- UTF-8 byte length of a character list (`str::len`). -/
def byteLen (l : List Char) : Nat := (l.map Char.utf8Size).sum

/-- `String::truncate budget`: keep the longest prefix of at most `budget`
UTF-8 bytes; `none` (panic) when `budget` falls strictly inside a
character. -/
def truncateBytes : Nat → List Char → Option (List Char)
  | _, [] => some []
  | budget, c :: cs =>
    if c.utf8Size ≤ budget then (truncateBytes (budget - c.utf8Size) cs).map (c :: ·)
    else if budget == 0 then some []
    else none

/-- The reserved-name test of step 4: the uppercased name equals a reserved
name or starts with `<RESERVED>.`. -/
def reservedHit (upper : List Char) : Bool :=
  reservedNames.any (fun r => upper == r.data || startsWithList (r.data ++ ['.']) upper)

/-- `sanitize_filename` on character lists, in source order: replace invalid
characters, trim trailing `.` and space, replace an empty result by `_`,
prepend `_` to reserved names, truncate to 255 bytes. -/
def sanitizeChars (name : List Char) : Option (List Char) :=
  let safe1 := name.map (fun c => if invalidChar c then '_' else c)
  let safe2 := (safe1.reverse.dropWhile (fun c => c == '.' || c == ' ')).reverse
  let safe3 := if safe2.isEmpty then ['_'] else safe2
  let upper := safe3.map Char.toUpper
  let safe4 := if reservedHit upper then '_' :: safe3 else safe3
  if byteLen safe4 > 255 then truncateBytes 255 safe4 else some safe4

/-- `sanitize_filename` on strings; `none` is the `String::truncate` panic. -/
def sanitize_filename (name : String) : Option String :=
  (sanitizeChars name.data).map String.mk

/-! ## Data model -/

/-- One entry of the manifest's `parts` array. -/
structure PartInfo where
  index : Nat
  size : Nat
  hash : String
  url : String
deriving DecidableEq

/-- One entry of the manifest's optional `files` array. -/
structure ArchiveFile where
  originalName : Option String
  size : Option Nat
deriving DecidableEq

/-- The archive manifest (`PartsResponse`). -/
structure PartsResponse where
  archiveId : String := ""
  isBundle : Bool := false
  chunkSizeBytes : Option Nat := none
  iv : String
  authTag : String
  originalSize : Option Nat := none
  encryptedSize : Option Nat := none
  downloadName : Option String := none
  displayName : Option String := none
  files : Option (List ArchiveFile) := none
  parts : List PartInfo

/-- Filesystem state the decryptor can touch: the contents at the decrypt
intermediate path (`decrypt_target`) and at the final output path. `none`
means no file is present. -/
structure FS where
  tmp : Option (List Nat)
  out : Option (List Nat)
deriving DecidableEq

/-- Abstracted vetted crypto/codec primitives used by the source. -/
structure Prims where
  aes : List Nat → List Nat → List Nat
  gfMul : List Nat → List Nat → List Nat
  b64 : String → Except String (List Nat)
  extractZip : List Nat → Nat → Except String (List Nat)

/-- `parts.sort_by_key(|p| p.index)` (a stable sort by index). -/
def sortByIndex (l : List PartInfo) : List PartInfo :=
  List.insertionSort (fun a b => a.index ≤ b.index) l

/-! ## Streaming GCM decryptor (`decrypt_parts` and helpers) -/

/-- `inc32`: increment the low 32 bits of a 16-byte block, big-endian,
wrapping. -/
def inc32 (block : List Nat) : List Nat :=
  block.take 12 ++ natToBeBytes ((beBytesToNat (block.drop 12) + 1) % 2 ^ 32) 4

/-- The keystream of `Ctr128BE::<Aes256>` started at counter value
`initCtr`: byte `i` comes from encrypting the counter block
`initCtr + i/16` (the full 128-bit counter is incremented big-endian). -/
def ctrKs (aes : List Nat → List Nat → List Nat) (key : List Nat)
    (initCtr : Nat) (i : Nat) : Nat :=
  (aes key (natToBeBytes ((initCtr + i / 16) % 2 ^ 128) 16)).getD (i % 16) 0

/-- `ghash_update`: append `data` to the residual buffer, drain every full
16-byte block into the GHASH accumulator, keep the remainder. -/
def ghash_update (mul : List Nat → List Nat → List Nat) (h : List Nat)
    (st : List Nat × List Nat) (data : List Nat) : List Nat × List Nat :=
  let p := splitBlocks (st.2 ++ data)
  (ghFold mul h st.1 p.1, p.2)

/-- `ghash_finalize`: flush a zero-padded residual block if any, then feed
the length block. -/
def ghash_finalize (mul : List Nat → List Nat → List Nat) (h : List Nat)
    (st : List Nat × List Nat) (cipher_len : Nat) : List Nat :=
  let st' := if st.2.isEmpty then st else (ghFold mul h st.1 [padTo16 st.2], ([] : List Nat))
  ghFold mul h st'.1 [lenBlock cipher_len]

/-- State of the decrypt read loop: GHASH accumulator with residual,
running ciphertext byte count, CTR stream position, and the plaintext
bytes written to the output file so far. -/
structure PSt where
  gh : List Nat × List Nat
  total : Nat
  off : Nat
  written : List Nat

/-- Process one window read from a part file: count it, GHASH it, decrypt
it with the CTR keystream and append it to the output. -/
def processChunk (mul : List Nat → List Nat → List Nat) (h : List Nat)
    (ks : Nat → Nat) (st : PSt) (chunk : List Nat) : PSt :=
  { gh := ghash_update mul h st.gh chunk
    total := st.total + chunk.length
    off := st.off + chunk.length
    written := st.written ++ ctrApply ks st.off chunk }

/-- The part loop of `decrypt_parts`: open each part file in sorted order
(`none` in the cache is a failing `File::open`) and stream its windows.
On failure the state reached so far is kept (the output file retains the
bytes already written). -/
def processParts (mul : List Nat → List Nat → List Nat) (h : List Nat)
    (ks : Nat → Nat) (cache : Nat → Option (List Nat)) :
    List PartInfo → PSt → PSt × Option String
  | [], st => (st, none)
  | p :: rest, st =>
    match cache p.index with
    | none => (st, some "part_open_failed")
    | some bytes =>
      processParts mul h ks cache rest ((chunksOf1M bytes).foldl (processChunk mul h ks) st)

/-- The bytes of the given parts' cache files, in the given order; `none`
if any part file is missing. -/
def partsBytes (cache : Nat → Option (List Nat)) : List PartInfo → Option (List (List Nat))
  | [] => some []
  | p :: rest =>
    match cache p.index, partsBytes cache rest with
    | some b, some bs => some (b :: bs)
    | _, _ => none

/-- The body of `decrypt_parts` after IV/tag validation: open the decrypt
target (truncating, so its content starts empty), stream-decrypt the
sorted parts while accumulating GHASH, compare the masked tag with the
manifest tag, then install the output (rename, or single-entry extraction
when `file_index` is set); on tag mismatch delete the decrypt target. -/
def decrypt_core (P : Prims) (sorted : List PartInfo) (cache : Nat → Option (List Nat))
    (key iv auth_tag : List Nat) (file_index : Option Nat) (fs : FS) :
    Except String Unit × FS :=
  let j0 := iv ++ [0, 0, 0, 1]
  let tag_mask := P.aes key j0
  let h := P.aes key (List.replicate 16 0)
  let ks := ctrKs P.aes key (beBytesToNat (inc32 j0))
  match processParts P.gfMul h ks cache sorted
    { gh := (List.replicate 16 0, []), total := 0, off := 0, written := [] } with
  | (st, some e) => (.error e, { tmp := some st.written, out := fs.out })
  | (st, none) =>
    let expected := xorB (ghash_finalize P.gfMul h st.gh st.total) tag_mask
    if expected ≠ auth_tag then (.error "auth_tag_mismatch", { tmp := none, out := fs.out })
    else
      match file_index with
      | none => (.ok (), { tmp := none, out := some st.written })
      | some idx =>
        match P.extractZip st.written idx with
        | .ok entry => (.ok (), { tmp := none, out := some entry })
        | .error e => (.error e, { tmp := some st.written, out := fs.out })

/-- `decrypt_parts`: derive the key, decode and validate IV and auth tag
(before any file is opened, truncated or written), then run the streaming
decryption body on the index-sorted parts. -/
def decrypt_parts (P : Prims) (parts : PartsResponse) (cache : Nat → Option (List Nat))
    (master_key : String) (file_index : Option Nat) (fs : FS) :
    Except String Unit × FS :=
  let key := derive_key master_key
  match P.b64 parts.iv with
  | .error e => (.error e, fs)
  | .ok iv =>
    match P.b64 parts.authTag with
    | .error e => (.error e, fs)
    | .ok auth_tag =>
      if iv.length ≠ 12 then (.error "invalid_iv", fs)
      else if auth_tag.length ≠ 16 then (.error "invalid_auth_tag", fs)
      else decrypt_core P (sortByIndex parts.parts) cache key iv auth_tag file_index fs

/-! ## Reference AES-256-GCM encryption

The spec's `AES-256-GCM-Encrypt(k, iv, p, no AAD)`, written from the GCM
specification (96-bit IV form): companion definition for the decrypt
round-trip refinement claim.  Successive counter blocks are produced by
`inc32` as GCM prescribes. -/

/-- Reference GCM keystream byte `i`: encrypt counter block
`inc32^(i/16+1)(J0)` and take byte `i mod 16`. -/
def gcmKs (aes : List Nat → List Nat → List Nat) (key iv : List Nat) (i : Nat) : Nat :=
  (aes key (inc32^[i / 16 + 1] (iv ++ [0, 0, 0, 1]))).getD (i % 16) 0

/-- Reference GCM ciphertext: plaintext XOR keystream. -/
def gcmCipher (aes : List Nat → List Nat → List Nat) (key iv p : List Nat) : List Nat :=
  ctrApply (gcmKs aes key iv) 0 p

/-- The ciphertext split into GHASH blocks, the last zero-padded. -/
def gcmPadBlocks (c : List Nat) : List (List Nat) :=
  (splitBlocks c).1 ++ (if (splitBlocks c).2.isEmpty then [] else [padTo16 (splitBlocks c).2])

/-- Reference GCM authentication tag over ciphertext `c` (no AAD):
`GHASH_H(c padded ++ length block) XOR AES_k(J0)`. -/
def gcmTag (aes gfMul : List Nat → List Nat → List Nat) (key iv c : List Nat) : List Nat :=
  let h := aes key (List.replicate 16 0)
  xorB (ghFold gfMul h (List.replicate 16 0) (gcmPadBlocks c ++ [lenBlock c.length]))
       (aes key (iv ++ [0, 0, 0, 1]))

/-- Manifest part entries for an explicit list of ciphertext pieces, at
consecutive indices starting from `i` (sizes are the piece lengths). -/
def mkPartsFrom (i : Nat) : List (List Nat) → List PartInfo
  | [] => []
  | b :: rest => { index := i, size := b.length, hash := "", url := "" } :: mkPartsFrom (i + 1) rest

/-- Manifest part entries for pieces stored at indices `0, 1, 2, ...`. -/
def mkParts (pieces : List (List Nat)) : List PartInfo := mkPartsFrom 0 pieces

/-- The part cache holding piece `i` at index `i`. -/
def cacheOf (pieces : List (List Nat)) : Nat → Option (List Nat) := fun i => pieces[i]?

/-! ## Archive download driver (`start_archive_download` and helpers)

One download task is modelled as a deterministic function of oracles: per
part an `IterOracle` fixes the cancellation-flag observations, the HTTP
responses, and the clock readings of that loop iteration.  The observable
behaviour of the task is a list of `Act`ions: emitted progress events
(`emit_progress`), status updates (`update_status`), and the per-part log
of cache reuse / direct attempts / relay attempts (the source logs relay
attempts through `log_event`). -/

/-- Observable driver actions. -/
inductive Act where
  | progress (downloaded : Nat) (total : Option Nat) (speed : Nat) (status : String)
  | setStatus (status : String)
  | cachedReuse (index : Nat)
  | directAttempt (index : Nat)
  | relayAttempt (index : Nat)
deriving DecidableEq

/-- An HTTP response that arrived: status code and body chunks. -/
structure NetResp where
  code : Nat
  chunks : List (List Nat)
deriving DecidableEq

/-- `reqwest::StatusCode::is_success`. -/
def isSuccessCode (c : Nat) : Bool := 200 ≤ c && c < 300

/-- Stream the body chunks into the destination file: for each received
chunk the cancellation flag is observed first (one `Bool` consumed per
chunk; an exhausted observation list reads `false`), then the chunk is
written.  Returns whether the stream completed, and the bytes written. -/
def streamWrite : List (List Nat) → List Bool → List Nat → Bool × List Nat
  | [], _, acc => (true, acc)
  | ch :: rest, [], acc => streamWrite rest [] (acc ++ ch)
  | ch :: rest, c :: cs, acc =>
    if c then (false, acc) else streamWrite rest cs (acc ++ ch)

/-- `verify_part_hash`: `Ok false` when the file does not exist;
reading an existing file can fail with an I/O error, propagated as `Err`
(`readErr = some e` is the read-failure observation); otherwise `Ok` of
whether the lowercase-hex SHA-256 of the bytes equals the expected hash. -/
def verify_part_hash (file : Option (List Nat)) (readErr : Option String)
    (expected : String) : Except String Bool :=
  match file with
  | none => .ok false
  | some b =>
    match readErr with
    | some e => .error e
    | none => .ok (sha256Hex b == expected)

/-- The cached-reuse test `if let Ok(existing) = r { if existing { … } }`:
true iff verification succeeded and reported a digest match. -/
def verifiedOk : Except String Bool → Bool
  | .ok b => b
  | .error _ => false

/-- The post-fetch rejection test `if let Ok(valid) = r { if !valid { … } }`:
true iff verification succeeded and reported a mismatch; an `Err` (read
error) is silently ignored. -/
def verifiedMismatch : Except String Bool → Bool
  | .ok b => !b
  | .error _ => false

/-- `download_part_direct`: propagate a send error; a 404 status is the
distinguished `expired`; any other non-2xx is `status_<code>`; otherwise
open the destination truncating and stream the body, `cancelled` when a
cancellation observation fires between chunks. -/
def download_part_direct (resp : Except String NetResp) (cancels : List Bool)
    (dest : Option (List Nat)) : Except String Unit × Option (List Nat) :=
  match resp with
  | .error e => (.error e, dest)
  | .ok r =>
    if r.code == 404 then (.error "expired", dest)
    else if !isSuccessCode r.code then (.error ("status_" ++ toString r.code), dest)
    else
      let w := streamWrite r.chunks cancels []
      if w.1 then (.ok (), some w.2) else (.error "cancelled", some w.2)

/-- `download_part_relay`: propagate a send error; any non-2xx is
`relay_status_<code>`; otherwise open the destination truncating and
stream the body, observing cancellation between chunks. -/
def download_part_relay (resp : Except String NetResp) (cancels : List Bool)
    (dest : Option (List Nat)) : Except String Unit × Option (List Nat) :=
  match resp with
  | .error e => (.error e, dest)
  | .ok r =>
    if !isSuccessCode r.code then (.error ("relay_status_" ++ toString r.code), dest)
    else
      let w := streamWrite r.chunks cancels []
      if w.1 then (.ok (), some w.2) else (.error "cancelled", some w.2)

/-- Environment oracle for one iteration of the part loop: the
cancellation flag at the top-of-loop observation, the outcome of reading
the part file at each of the two `verify_part_hash` calls (`none` = the
read succeeds, `some e` = it fails with error `e`), the clock readings
(`Instant::now()`) used by the direct/relay policy, the outcomes of the
network requests, the cancellation observations within each streamed
fetch, and the 500 ms progress-throttle decision with the (float-derived)
speed value. -/
structure IterOracle where
  cancelTop : Bool
  cacheReadErr : Option String
  nowCheck : Nat
  direct1 : Except String NetResp
  direct1Cancels : List Bool
  refresh : Except String String
  direct2 : Except String NetResp
  direct2Cancels : List Bool
  nowFail : Nat
  relay : Except String NetResp
  relayCancels : List Bool
  fetchReadErr : Option String
  tick : Bool
  speedVal : Nat

/-- A benign oracle used when the oracle list is exhausted. -/
def defaultOracle : IterOracle :=
  { cancelTop := false, cacheReadErr := none, nowCheck := 0, direct1 := .error "no_oracle",
    direct1Cancels := [], refresh := .error "no_oracle",
    direct2 := .error "no_oracle", direct2Cancels := [], nowFail := 0,
    relay := .error "no_oracle", relayCancels := [], fetchReadErr := none,
    tick := false, speedVal := 0 }

/-- Driver state across part-loop iterations: the cumulative ciphertext
byte counter, the direct/relay policy state (`discord_ok`,
`next_direct_check`), the part cache, and the observable action trace. -/
structure DriverState where
  downloaded : Nat
  discordOk : Bool
  nextDirectCheck : Nat
  cache : Nat → Option (List Nat)
  trace : List Act

/-- Overwrite one entry of the part cache. -/
def updateCache (cache : Nat → Option (List Nat)) (i : Nat) (v : Option (List Nat)) :
    Nat → Option (List Nat) :=
  fun j => if j = i then v else cache j

/-- The direct-attempt guard: `discord_ok || Instant::now() >= next_direct_check`. -/
def shouldTryDirect (o : IterOracle) (st : DriverState) : Bool :=
  st.discordOk || decide (st.nextDirectCheck ≤ o.nowCheck)

/-- The direct-fetch phase of one iteration: try the direct URL if the
guard allows; on `expired` refresh the URL and retry once; on overall
failure enter the relay-preferring state with a 300 s back-off.  Returns
`direct_ok` and the updated state. -/
def directPhase (p : PartInfo) (o : IterOracle) (st : DriverState) : Bool × DriverState :=
  if shouldTryDirect o st then
    let st1 := { st with trace := st.trace ++ [Act.directAttempt p.index] }
    match download_part_direct o.direct1 o.direct1Cancels (st1.cache p.index) with
    | (.ok _, f) => (true, { st1 with cache := updateCache st1.cache p.index f, discordOk := true })
    | (.error e, f) =>
      let st2 := { st1 with cache := updateCache st1.cache p.index f }
      let retry :=
        if e == "expired" then
          match o.refresh with
          | .ok _ =>
            let st3 := { st2 with trace := st2.trace ++ [Act.directAttempt p.index] }
            match download_part_direct o.direct2 o.direct2Cancels (st3.cache p.index) with
            | (.ok _, f2) =>
              (true, { st3 with cache := updateCache st3.cache p.index f2, discordOk := true })
            | (.error _, f2) =>
              (false, { st3 with cache := updateCache st3.cache p.index f2 })
          | .error _ => (false, st2)
        else (false, st2)
      if retry.1 then retry
      else (false, { retry.2 with discordOk := false, nextDirectCheck := o.nowFail + 300 })
  else (false, st)

/-- Result of one part-loop iteration: proceed to the next part, or
return from the task with a terminal status. -/
inductive IterResult where
  | next (st : DriverState)
  | stop (st : DriverState) (finalStatus : String)

/-- The driver state carried by an iteration result. -/
def IterResult.state : IterResult → DriverState
  | .next st => st
  | .stop st _ => st

/-- After a successful fetch: re-verify the cached file against the
manifest hash inside `if let Ok(valid)`: only a verification that
*succeeds* with a mismatch emits `error` and returns — a read error is
silently ignored.  Otherwise account the part's size and emit a
throttled `downloading` progress event. -/
def afterFetch (tot : Option Nat) (p : PartInfo) (o : IterOracle) (st : DriverState) :
    IterResult :=
  if verifiedMismatch (verify_part_hash (st.cache p.index) o.fetchReadErr p.hash) then
    .stop { st with trace := st.trace ++ [Act.progress st.downloaded tot 0 "error",
                                          Act.setStatus "error"] } "error"
  else
    let d := st.downloaded + p.size
    if o.tick then
      .next { st with downloaded := d,
                      trace := st.trace ++ [Act.progress d tot o.speedVal "downloading"] }
    else .next { st with downloaded := d }

/-- The fetch path of one iteration (taken when the cached part is not
reused): fetch directly and/or via relay per the policy, then re-verify
and account progress. -/
def fetchPhase (tot : Option Nat) (p : PartInfo) (o : IterOracle) (st : DriverState) :
    IterResult :=
  let dp := directPhase p o st
  if dp.1 then afterFetch tot p o dp.2
  else
    let st1 := { dp.2 with trace := dp.2.trace ++ [Act.relayAttempt p.index] }
    match download_part_relay o.relay o.relayCancels (st1.cache p.index) with
    | (.error _, f) =>
      .stop { st1 with cache := updateCache st1.cache p.index f,
                       trace := st1.trace ++ [Act.progress st1.downloaded tot 0 "error",
                                              Act.setStatus "error"] }
        "error"
    | (.ok _, f) => afterFetch tot p o { st1 with cache := updateCache st1.cache p.index f }

/-- One iteration of the part loop of `start_archive_download`: check the
cancellation flag; reuse the cached part when `if let Ok(existing)`
verification reports a match (a read error, like a mismatch, falls
through to the fetch path); otherwise fetch. -/
def runIter (tot : Option Nat) (p : PartInfo) (o : IterOracle) (st : DriverState) :
    IterResult :=
  if o.cancelTop then
    .stop { st with trace := st.trace ++ [Act.progress st.downloaded tot 0 "paused",
                                          Act.setStatus "paused"] } "paused"
  else if verifiedOk (verify_part_hash (st.cache p.index) o.cacheReadErr p.hash) then
    .next { st with downloaded := st.downloaded + p.size,
                    trace := st.trace ++ [Act.cachedReuse p.index] }
  else fetchPhase tot p o st

/-- The part loop: run the iterations in order until one stops the task
or all parts are processed. -/
def runLoop (tot : Option Nat) : List PartInfo → List IterOracle → DriverState →
    DriverState × Option String
  | [], _, st => (st, none)
  | p :: rest, os, st =>
    match runIter tot p (os.headD defaultOracle) st with
    | .stop st' s => (st', some s)
    | .next st' => runLoop tot rest os.tail st'

/-- The task record of `list_downloads` (`DownloadItem`). -/
structure DownloadItem where
  id : String
  archive_id : String
  name : String
  downloaded : Nat
  total : Option Nat
  status : String
deriving DecidableEq

/-- The outcome of one archive download task. -/
structure RunResult where
  registered : DownloadItem
  trace : List Act
  finalStatus : String
  cache : Nat → Option (List Nat)
  fs : FS
  downloaded : Nat

/-- `start_archive_download` (after the manifest fetch): register the task
record with status `queued`, then run the spawned driver: the part loop
over the index-sorted parts, then `decrypt_parts`, emitting the terminal
progress event and status; on success the part-cache directory is
removed.  `t0` is `Instant::now()` at task start (the initial
`next_direct_check`). -/
def start_archive_download (P : Prims) (resp : PartsResponse) (master_key : String)
    (file_index : Option Nat) (safe_name id archive_id : String)
    (os : List IterOracle) (t0 : Nat) (cache0 : Nat → Option (List Nat)) (fs0 : FS) :
    RunResult :=
  let tot := resp.originalSize.or resp.encryptedSize
  let item : DownloadItem :=
    { id := id, archive_id := archive_id, name := safe_name, downloaded := 0,
      total := tot, status := "queued" }
  let sorted := sortByIndex resp.parts
  let st0 : DriverState :=
    { downloaded := 0, discordOk := true, nextDirectCheck := t0, cache := cache0, trace := [] }
  match runLoop tot sorted os st0 with
  | (st, some finalStatus) =>
    { registered := item, trace := st.trace, finalStatus := finalStatus,
      cache := st.cache, fs := fs0, downloaded := st.downloaded }
  | (st, none) =>
    match decrypt_parts P resp st.cache master_key file_index fs0 with
    | (.error _, fs') =>
      { registered := item,
        trace := st.trace ++ [Act.progress st.downloaded tot 0 "error", Act.setStatus "error"],
        finalStatus := "error", cache := st.cache, fs := fs', downloaded := st.downloaded }
    | (.ok _, fs') =>
      { registered := item,
        trace := st.trace ++ [Act.progress st.downloaded tot 0 "completed",
                              Act.setStatus "completed"],
        finalStatus := "completed", cache := fun _ => none, fs := fs',
        downloaded := st.downloaded }

/-- The `downloaded` values of the progress events in a trace, in order. -/
def progressDownloads : List Act → List Nat
  | [] => []
  | Act.progress d _ _ _ :: rest => d :: progressDownloads rest
  | _ :: rest => progressDownloads rest

/-- The statuses of the progress events in a trace, in order. -/
def progressStatuses : List Act → List String
  | [] => []
  | Act.progress _ _ _ s :: rest => s :: progressStatuses rest
  | _ :: rest => progressStatuses rest

/-- Sum of the manifest's part sizes. -/
def partsSum (l : List PartInfo) : Nat := (l.map (fun p => p.size)).sum

/-- Is the iteration result a `next` (the driver proceeds to the next part)? -/
def IterResult.isNext : IterResult → Bool
  | .next _ => true
  | .stop _ _ => false

/-- Invariant of a driver trace with current counter `d`: progress
`downloaded` values are non-decreasing and bounded by `d`, and every
emitted progress status is one of the four loop statuses. -/
def TInv (t : List Act) (d : Nat) : Prop :=
  List.Chain' (· ≤ ·) (progressDownloads t) ∧
  (∀ v ∈ progressDownloads t, v ≤ d) ∧
  (∀ s ∈ progressStatuses t,
      s ∈ (["downloading", "paused", "error", "completed"] : List String))

/-- The trace invariant of a driver state. -/
def TraceInv (st : DriverState) : Prop := TInv st.trace st.downloaded

/-! ## Concrete instances used by witnesses and counterexamples -/

/-- Degenerate primitives for concrete runs: AES and the GF multiply are
the constant zero block, base64 decodes three fixed tokens. -/
def zeroPrims : Prims :=
  { aes := fun _ _ => List.replicate 16 0
    gfMul := fun _ _ => List.replicate 16 0
    b64 := fun s =>
      if s = "IV" then .ok (List.replicate 12 0)
      else if s = "TAG" then .ok (List.replicate 16 0)
      else if s = "TAGX" then .ok (1 :: List.replicate 15 0)
      else .error "bad_base64"
    extractZip := fun _ _ => .ok [] }

/-- An all-benign driver state to start concrete runs from. -/
def st0Empty : DriverState :=
  { downloaded := 0, discordOk := true, nextDirectCheck := 0,
    cache := fun _ => none, trace := [] }

/-- A one-byte part whose manifest hash matches its cached/fetched bytes. -/
def c3Part : PartInfo := { index := 0, size := 1, hash := sha256Hex [7], url := "u" }

/-- Oracle for the cancellation counterexample: the flag is observed clear
at the top of the loop, then set during the direct fetch and during the
relay fetch. -/
def c3Oracle : IterOracle :=
  { cancelTop := false, cacheReadErr := none, nowCheck := 0,
    direct1 := .ok { code := 200, chunks := [[7]] }, direct1Cancels := [true],
    refresh := .error "r", direct2 := .error "d", direct2Cancels := [], nowFail := 0,
    relay := .ok { code := 200, chunks := [[7]] }, relayCancels := [true],
    fetchReadErr := none, tick := false, speedVal := 0 }

/-- Full run of the cancellation counterexample. -/
def c3Run : RunResult :=
  start_archive_download zeroPrims { iv := "IV", authTag := "TAG", parts := [c3Part] }
    "mk" none "n" "id" "a" [c3Oracle] 0 (fun _ => none) { tmp := none, out := none }

/-- A part whose manifest `size` (5) disagrees with the length of the
cached bytes (3), while the manifest hash is the SHA-256 of those bytes. -/
def c4Part : PartInfo := { index := 0, size := 5, hash := sha256Hex [97, 98, 99], url := "u" }

/-- Driver state with the 3-byte file cached for `c4Part`. -/
def c4State : DriverState :=
  { downloaded := 0, discordOk := true, nextDirectCheck := 0,
    cache := fun i => if i = 0 then some [97, 98, 99] else none, trace := [] }

/-- The iteration that reuses the wrong-length cached part. -/
def c4Iter : IterResult := runIter none c4Part defaultOracle c4State

/-- Driver state with a fetched file cached for `c4Part` whose bytes do
*not* hash to the manifest hash. -/
def c4FetchState : DriverState :=
  { downloaded := 0, discordOk := true, nextDirectCheck := 0,
    cache := fun i => if i = 0 then some [1, 2, 3] else none, trace := [] }

/-- Oracle whose post-fetch re-verification read fails with an I/O error. -/
def c4ErrOracle : IterOracle := { defaultOracle with fetchReadErr := some "io_error" }

/-- First part of the relay-fallback counterexample run. -/
def c5Part0 : PartInfo := { index := 0, size := 1, hash := sha256Hex [7], url := "u0" }

/-- Second part of the relay-fallback counterexample run. -/
def c5Part1 : PartInfo := { index := 1, size := 1, hash := sha256Hex [8], url := "u1" }

/-- Oracle for part 0: the direct fetch answers 500, the relay succeeds. -/
def c5Oracle0 : IterOracle :=
  { cancelTop := false, cacheReadErr := none, nowCheck := 0,
    direct1 := .ok { code := 500, chunks := [] }, direct1Cancels := [],
    refresh := .error "r", direct2 := .error "d", direct2Cancels := [], nowFail := 0,
    relay := .ok { code := 200, chunks := [[7]] }, relayCancels := [],
    fetchReadErr := none, tick := false, speedVal := 0 }

/-- Oracle for part 1: the clock (10) is before the back-off deadline
(300), the relay succeeds. -/
def c5Oracle1 : IterOracle :=
  { c5Oracle0 with nowCheck := 10, relay := .ok { code := 200, chunks := [[8]] } }

/-- Manifest of the relay-fallback counterexample run. -/
def c5Manifest : PartsResponse := { iv := "IV", authTag := "TAG", parts := [c5Part0, c5Part1] }

/-- Full run of the relay-fallback counterexample. -/
def c5Run : RunResult :=
  start_archive_download zeroPrims c5Manifest "mk" none "n" "id" "a"
    [c5Oracle0, c5Oracle1] 0 (fun _ => none) { tmp := none, out := none }

/-- Driver state after part 0 of the relay-fallback run failed direct:
relay-preferring with the 300 s back-off armed. -/
def c5StateRelay : DriverState :=
  { downloaded := 0, discordOk := false, nextDirectCheck := 300,
    cache := fun _ => none, trace := [] }

/-- A one-byte part for the successful single-part run. -/
def c9Part : PartInfo := { index := 0, size := 1, hash := sha256Hex [9], url := "u" }

/-- Oracle for the successful single-part run: the direct fetch succeeds
and the 500 ms progress throttle fires. -/
def c9Oracle : IterOracle :=
  { cancelTop := false, cacheReadErr := none, nowCheck := 0,
    direct1 := .ok { code := 200, chunks := [[9]] }, direct1Cancels := [],
    refresh := .error "r", direct2 := .error "d", direct2Cancels := [], nowFail := 0,
    relay := .error "r", relayCancels := [], fetchReadErr := none,
    tick := true, speedVal := 5 }

/-- Full successful single-part run: fetch, verify, decrypt, complete. -/
def c9Run : RunResult :=
  start_archive_download zeroPrims { iv := "IV", authTag := "TAG", parts := [c9Part] }
    "mk" none "n" "id" "a" [c9Oracle] 0 (fun _ => none) { tmp := none, out := none }

/-- A 256-byte name: 254 `a`s, a dot, then `x`; sanitization truncates it
to 255 bytes, leaving a trailing dot. -/
def cexLongName : List Char := List.replicate 254 'a' ++ ['.', 'x']

/-- A 256-byte name whose 255-byte truncation point falls inside the
two-byte character `é`, making `String::truncate` panic. -/
def cexPanicName : List Char := List.replicate 254 'a' ++ ['é']

/-- `sanitize_filename` of `cexLongName`: ends with a dot. -/
def cexOnce : String := String.mk (List.replicate 254 'a' ++ ['.'])

/-- `sanitize_filename` of `cexOnce`: the trailing dot is trimmed again. -/
def cexTwice : String := String.mk (List.replicate 254 'a')

/-- The outcome of `decrypt_core` once all parts stream successfully,
phrased in terms of the whole concatenated ciphertext `c`: decide by the
reference GCM tag, install the CTR-decrypted plaintext (directly or
through the extractor). -/
def decryptOutcome (P : Prims) (key iv tagB : List Nat) (fidx : Option Nat) (fs : FS)
    (c : List Nat) : Except String Unit × FS :=
  let pt := ctrApply (ctrKs P.aes key (beBytesToNat (inc32 (iv ++ [0, 0, 0, 1])))) 0 c
  if gcmTag P.aes P.gfMul key iv c = tagB then
    match fidx with
    | none => (.ok (), { tmp := none, out := some pt })
    | some idx =>
      match P.extractZip pt idx with
      | .ok entry => (.ok (), { tmp := none, out := some entry })
      | .error e => (.error e, { tmp := some pt, out := fs.out })
  else (.error "auth_tag_mismatch", { tmp := none, out := fs.out })

/-- The decrypt-loop state after consuming the ciphertext prefix
`consumed` through any sequence of windows: full 16-byte blocks GHASHed,
remainder buffered, counters advanced, decrypted bytes written. -/
def stOf (mul : List Nat → List Nat → List Nat) (h : List Nat) (ks : Nat → Nat)
    (consumed : List Nat) : PSt :=
  { gh := (ghFold mul h (List.replicate 16 0) (splitBlocks consumed).1, (splitBlocks consumed).2)
    total := consumed.length
    off := consumed.length
    written := ctrApply ks 0 consumed }

/-! ## Lemmas: byte encodings and the CTR counter -/

theorem natToBeBytes_length (n len : Nat) : (natToBeBytes n len).length = len := by
  induction len generalizing n with
  | zero => rfl
  | succ k ih => simp [natToBeBytes, ih]

theorem beBytesToNat_acc (acc : Nat) (l : List Nat) :
    l.foldl (fun a b => a * 256 + b) acc = acc * 256 ^ l.length + beBytesToNat l := by
  induction l generalizing acc with
  | nil => simp [beBytesToNat]
  | cons b rest ih =>
    show (rest.foldl _ (acc * 256 + b)) = _
    rw [ih (acc * 256 + b)]
    have hb : beBytesToNat (b :: rest) = b * 256 ^ rest.length + beBytesToNat rest := by
      show (rest.foldl _ (0 * 256 + b)) = _
      rw [ih (0 * 256 + b)]; ring_nf
    rw [hb]
    simp [List.length_cons]
    ring

theorem beBytesToNat_append (a b : List Nat) :
    beBytesToNat (a ++ b) = beBytesToNat a * 256 ^ b.length + beBytesToNat b := by
  unfold beBytesToNat
  rw [List.foldl_append]
  exact beBytesToNat_acc _ b

theorem beBytesToNat_natToBeBytes (len n : Nat) (h : n < 256 ^ len) :
    beBytesToNat (natToBeBytes n len) = n := by
  induction len generalizing n with
  | zero =>
    have : n = 0 := Nat.lt_one_iff.mp (by simpa using h)
    simp [this, natToBeBytes, beBytesToNat]
  | succ k ih =>
    show beBytesToNat (natToBeBytes (n / 256) k ++ [n % 256]) = n
    rw [beBytesToNat_append]
    have hdiv : n / 256 < 256 ^ k := by
      rw [Nat.div_lt_iff_lt_mul (by norm_num)]
      calc n < 256 ^ (k + 1) := h
        _ = 256 ^ k * 256 := by ring
    rw [ih _ hdiv]
    simp [beBytesToNat]
    omega

theorem natToBeBytes_bytes_lt (len n : Nat) : ∀ b ∈ natToBeBytes n len, b < 256 := by
  induction len generalizing n with
  | zero => intro b hb; simp [natToBeBytes] at hb
  | succ k ih =>
    intro b hb
    simp only [natToBeBytes, List.mem_append, List.mem_singleton] at hb
    rcases hb with hb | hb
    · exact ih _ b hb
    · subst hb; exact Nat.mod_lt _ (by norm_num)

theorem beBytesToNat_lt (l : List Nat) (h : ∀ b ∈ l, b < 256) :
    beBytesToNat l < 256 ^ l.length := by
  induction l with
  | nil => simp [beBytesToNat]
  | cons b rest ih =>
    have hb : beBytesToNat (b :: rest) = b * 256 ^ rest.length + beBytesToNat rest := by
      show (rest.foldl _ (0 * 256 + b)) = _
      rw [beBytesToNat_acc (0 * 256 + b)]; ring_nf
    rw [hb]
    have h1 : b < 256 := h b (List.mem_cons_self _ _)
    have h2 : beBytesToNat rest < 256 ^ rest.length := ih (fun x hx => h x (List.mem_cons_of_mem _ hx))
    calc b * 256 ^ rest.length + beBytesToNat rest
        < b * 256 ^ rest.length + 256 ^ rest.length := by omega
      _ = (b + 1) * 256 ^ rest.length := by ring
      _ ≤ 256 * 256 ^ rest.length := Nat.mul_le_mul_right _ (by omega)
      _ = 256 ^ (b :: rest).length := by rw [List.length_cons]; ring

theorem natToBeBytes_beBytesToNat (l : List Nat) (h : ∀ b ∈ l, b < 256) :
    natToBeBytes (beBytesToNat l) l.length = l := by
  induction l using List.reverseRecOn with
  | nil => rfl
  | append_singleton a b ih =>
    have hb : b < 256 := h b (by simp)
    rw [beBytesToNat_append]
    simp only [List.length_append, List.length_singleton]
    show natToBeBytes (beBytesToNat a * 256 ^ [b].length + beBytesToNat [b]) (a.length + 1) = a ++ [b]
    have hsb : beBytesToNat [b] = b := by
      show [b].foldl _ 0 = b
      simp [beBytesToNat_acc]
    simp only [List.length_singleton, pow_one, hsb]
    have hdiv : (beBytesToNat a * 256 + b) / 256 = beBytesToNat a := by omega
    have hmod : (beBytesToNat a * 256 + b) % 256 = b := by omega
    have hstep : natToBeBytes (beBytesToNat a * 256 + b) (a.length + 1) =
        natToBeBytes ((beBytesToNat a * 256 + b) / 256) a.length ++
          [(beBytesToNat a * 256 + b) % 256] := rfl
    rw [hstep, hdiv, hmod, ih (fun x hx => h x (by simp [hx]))]

theorem natToBeBytes_split (a m : Nat) : ∀ k b, b < 256 ^ k →
    natToBeBytes (a * 256 ^ k + b) (m + k) = natToBeBytes a m ++ natToBeBytes b k := by
  intro k
  induction k with
  | zero =>
    intro b hb
    have : b = 0 := Nat.lt_one_iff.mp (by simpa using hb)
    simp [this, natToBeBytes]
  | succ j ih =>
    intro b hb
    have hstep : natToBeBytes (a * 256 ^ (j + 1) + b) (m + (j + 1)) =
        natToBeBytes ((a * 256 ^ (j + 1) + b) / 256) (m + j) ++
          [(a * 256 ^ (j + 1) + b) % 256] := rfl
    have hpow : a * 256 ^ (j + 1) + b = (a * 256 ^ j) * 256 + b := by ring
    have hdiv : (a * 256 ^ (j + 1) + b) / 256 = a * 256 ^ j + b / 256 := by
      rw [hpow]; omega
    have hmod : (a * 256 ^ (j + 1) + b) % 256 = b % 256 := by
      rw [hpow]; omega
    have hb' : b / 256 < 256 ^ j := by
      rw [Nat.div_lt_iff_lt_mul (by norm_num)]
      calc b < 256 ^ (j + 1) := hb
        _ = 256 ^ j * 256 := by ring
    rw [hstep, hdiv, hmod, ih _ hb', List.append_assoc]
    rfl

theorem inc32_on_append (iv four : List Nat) (h : iv.length = 12) :
    inc32 (iv ++ four) = iv ++ natToBeBytes ((beBytesToNat four + 1) % 2 ^ 32) 4 := by
  unfold inc32
  rw [List.take_left' h, List.drop_left' h]

theorem inc32_iterate (iv : List Nat) (h12 : iv.length = 12) :
    ∀ k, k + 2 < 2 ^ 32 →
    inc32^[k] (iv ++ natToBeBytes 2 4) = iv ++ natToBeBytes (k + 2) 4 := by
  intro k
  induction k with
  | zero => intro _; rfl
  | succ j ih =>
    intro hk
    rw [Function.iterate_succ_apply', ih (by omega),
        inc32_on_append _ _ h12,
        beBytesToNat_natToBeBytes 4 (j + 2) (by norm_num; omega)]
    have : (j + 2 + 1) % 2 ^ 32 = j + 1 + 2 := by omega
    rw [this]

theorem ctr_counter_eq (iv : List Nat) (h12 : iv.length = 12) (hb : ∀ b ∈ iv, b < 256)
    (k : Nat) (hk : k + 2 < 2 ^ 32) :
    natToBeBytes ((beBytesToNat (iv ++ natToBeBytes 2 4) + k) % 2 ^ 128) 16 =
      inc32^[k] (iv ++ natToBeBytes 2 4) := by
  rw [inc32_iterate iv h12 k hk]
  have h2 : beBytesToNat (natToBeBytes 2 4) = 2 := by
    exact beBytesToNat_natToBeBytes 4 2 (by norm_num)
  have happ : beBytesToNat (iv ++ natToBeBytes 2 4) = beBytesToNat iv * 2 ^ 32 + 2 := by
    rw [beBytesToNat_append, natToBeBytes_length, h2]
    norm_num
  have hivlt : beBytesToNat iv < 2 ^ 96 := by
    have := beBytesToNat_lt iv hb
    rw [h12] at this
    calc beBytesToNat iv < 256 ^ 12 := this
      _ = 2 ^ 96 := by norm_num
  have hsum : beBytesToNat iv * 2 ^ 32 + 2 + k < 2 ^ 128 := by
    have h1 : beBytesToNat iv * 2 ^ 32 ≤ (2 ^ 96 - 1) * 2 ^ 32 := by
      have : beBytesToNat iv ≤ 2 ^ 96 - 1 := by omega
      exact Nat.mul_le_mul_right _ this
    have h2' : (2 ^ 96 - 1) * 2 ^ 32 + 2 ^ 32 = 2 ^ 128 := by norm_num
    omega
  rw [happ]
  have hmod : (beBytesToNat iv * 2 ^ 32 + 2 + k) % 2 ^ 128 = beBytesToNat iv * 2 ^ 32 + (k + 2) := by
    rw [Nat.mod_eq_of_lt hsum]; ring
  rw [hmod]
  have hsplit : natToBeBytes (beBytesToNat iv * 2 ^ 32 + (k + 2)) 16 =
      natToBeBytes (beBytesToNat iv) 12 ++ natToBeBytes (k + 2) 4 := by
    have h4 : (256 : Nat) ^ 4 = 2 ^ 32 := by norm_num
    have := natToBeBytes_split (beBytesToNat iv) 12 4 (k + 2) (by rw [h4]; omega)
    rw [h4] at this
    exact this
  rw [hsplit]
  have hrt : natToBeBytes (beBytesToNat iv) 12 = iv := by
    have := natToBeBytes_beBytesToNat iv hb
    rw [h12] at this
    exact this
  rw [hrt]

/-! ## Lemmas: CTR application and chunking -/

theorem ctrApply_append (ks : Nat → Nat) (a : List Nat) :
    ∀ off b, ctrApply ks off (a ++ b) = ctrApply ks off a ++ ctrApply ks (off + a.length) b := by
  induction a with
  | nil => intro off b; simp [ctrApply]
  | cons x rest ih =>
    intro off b
    show (x ^^^ ks off) :: ctrApply ks (off + 1) (rest ++ b) = _
    rw [ih (off + 1) b, show off + 1 + rest.length = off + (rest.length + 1) by ring]
    rfl

theorem ctrApply_length (ks : Nat → Nat) : ∀ off l, (ctrApply ks off l).length = l.length := by
  intro off l
  induction l generalizing off with
  | nil => rfl
  | cons x rest ih => simp [ctrApply, ih]

theorem ctrApply_congr (ks1 ks2 : Nat → Nat) :
    ∀ l off, (∀ i, off ≤ i → i < off + l.length → ks1 i = ks2 i) →
    ctrApply ks1 off l = ctrApply ks2 off l := by
  intro l
  induction l with
  | nil => intro off _; rfl
  | cons x rest ih =>
    intro off h
    simp only [ctrApply]
    rw [h off (le_refl _) (by simp),
        ih (off + 1) (fun i h1 h2 => h i (by omega) (by simp only [List.length_cons]; omega))]

theorem ctrApply_involution (ks : Nat → Nat) : ∀ l off, ctrApply ks off (ctrApply ks off l) = l := by
  intro l
  induction l with
  | nil => intro off; rfl
  | cons x rest ih =>
    intro off
    simp only [ctrApply, ih (off + 1)]
    rw [Nat.xor_cancel_right]

theorem chunksAcc_flatten (k : Nat) : ∀ (l acc : List Nat) (n : Nat),
    (chunksAcc k l acc n).flatten = acc.reverse ++ l := by
  intro l
  induction l with
  | nil =>
    intro acc n
    unfold chunksAcc
    by_cases h : acc.isEmpty
    · simp [h, List.isEmpty_iff.mp h]
    · simp [h]
  | cons b rest ih =>
    intro acc n
    cases n with
    | zero =>
      show (acc.reverse :: chunksAcc k rest [b] (k - 1)).flatten = acc.reverse ++ b :: rest
      simp [List.flatten, ih [b] (k - 1)]
    | succ m =>
      show (chunksAcc k rest (b :: acc) m).flatten = acc.reverse ++ b :: rest
      rw [ih (b :: acc) m]
      simp

theorem chunksOf1M_flatten (l : List Nat) : (chunksOf1M l).flatten = l := by
  unfold chunksOf1M chunksOfSize
  rw [chunksAcc_flatten]
  rfl

/-! ## Lemmas: GHASH streaming -/

theorem splitBlocks_short (l : List Nat)
    (h : ∀ (b0 b1 b2 b3 b4 b5 b6 b7 b8 b9 b10 b11 b12 b13 b14 b15 : Nat) (rest : List Nat),
      l = b0 :: b1 :: b2 :: b3 :: b4 :: b5 :: b6 :: b7 :: b8 :: b9 :: b10 :: b11 :: b12 ::
            b13 :: b14 :: b15 :: rest → False) :
    splitBlocks l = ([], l) := by
  match l, h with
  | [], _ => rfl
  | [a], _ => rfl
  | [a,b], _ => rfl
  | [a,b,c], _ => rfl
  | [a,b,c,d], _ => rfl
  | [a,b,c,d,e], _ => rfl
  | [a,b,c,d,e,f], _ => rfl
  | [a,b,c,d,e,f,g], _ => rfl
  | [a,b,c,d,e,f,g,h'], _ => rfl
  | [a,b,c,d,e,f,g,h',i], _ => rfl
  | [a,b,c,d,e,f,g,h',i,j], _ => rfl
  | [a,b,c,d,e,f,g,h',i,j,k], _ => rfl
  | [a,b,c,d,e,f,g,h',i,j,k,m], _ => rfl
  | [a,b,c,d,e,f,g,h',i,j,k,m,n], _ => rfl
  | [a,b,c,d,e,f,g,h',i,j,k,m,n,o], _ => rfl
  | [a,b,c,d,e,f,g,h',i,j,k,m,n,o,p], _ => rfl
  | a::b::c::d::e::f::g::h'::i::j::k::m::n::o::p::q::rest, hh =>
    exact (hh a b c d e f g h' i j k m n o p q rest rfl).elim

theorem splitBlocks_append (l r : List Nat) :
    splitBlocks (l ++ r) =
      ((splitBlocks l).1 ++ (splitBlocks ((splitBlocks l).2 ++ r)).1,
       (splitBlocks ((splitBlocks l).2 ++ r)).2) := by
  induction l using splitBlocks.induct with
  | case1 b0 b1 b2 b3 b4 b5 b6 b7 b8 b9 b10 b11 b12 b13 b14 b15 rest ih =>
    simp only [List.cons_append, splitBlocks, List.append_eq]
    rw [ih]
  | case2 l h =>
    rw [splitBlocks_short l h]
    simp

theorem ghFold_append (mul : List Nat → List Nat → List Nat) (h y : List Nat)
    (A B : List (List Nat)) :
    ghFold mul h y (A ++ B) = ghFold mul h (ghFold mul h y A) B := by
  unfold ghFold
  exact List.foldl_append _ _ _ _

theorem processChunk_stOf (mul : List Nat → List Nat → List Nat) (h : List Nat)
    (ks : Nat → Nat) (c d : List Nat) :
    processChunk mul h ks (stOf mul h ks c) d = stOf mul h ks (c ++ d) := by
  unfold processChunk stOf ghash_update
  simp only [PSt.mk.injEq, List.length_append]
  refine ⟨?_, trivial, trivial, ?_⟩
  · rw [splitBlocks_append c d, ghFold_append]
  · rw [ctrApply_append ks c 0 d, Nat.zero_add]

theorem foldl_processChunk_stOf (mul : List Nat → List Nat → List Nat) (h : List Nat)
    (ks : Nat → Nat) (ds : List (List Nat)) : ∀ c : List Nat,
    ds.foldl (processChunk mul h ks) (stOf mul h ks c) = stOf mul h ks (c ++ ds.flatten) := by
  induction ds with
  | nil => intro c; simp
  | cons d rest ih =>
    intro c
    simp only [List.foldl_cons, processChunk_stOf, ih (c ++ d), List.flatten_cons,
      List.append_assoc]

theorem processParts_ok (mul : List Nat → List Nat → List Nat) (h : List Nat)
    (ks : Nat → Nat) (cache : Nat → Option (List Nat)) :
    ∀ (ps : List PartInfo) (bl : List (List Nat)),
    partsBytes cache ps = some bl → ∀ c : List Nat,
    processParts mul h ks cache ps (stOf mul h ks c) = (stOf mul h ks (c ++ bl.flatten), none) := by
  intro ps
  induction ps with
  | nil =>
    intro bl hbl c
    simp only [partsBytes, Option.some.injEq] at hbl
    subst hbl
    simp [processParts]
  | cons p rest ih =>
    intro bl hbl c
    simp only [partsBytes] at hbl
    cases hcb : cache p.index with
    | none => rw [hcb] at hbl; simp at hbl
    | some bytes =>
      rw [hcb] at hbl
      cases hr : partsBytes cache rest with
      | none => rw [hr] at hbl; simp at hbl
      | some bs =>
        rw [hr] at hbl
        simp only [Option.some.injEq] at hbl
        subst hbl
        unfold processParts
        rw [hcb]
        show processParts mul h ks cache rest
            (List.foldl (processChunk mul h ks) (stOf mul h ks c) (chunksOf1M bytes)) = _
        rw [foldl_processChunk_stOf, chunksOf1M_flatten, ih bs hr (c ++ bytes)]
        simp [List.append_assoc]

theorem ghash_finalize_stOf (mul : List Nat → List Nat → List Nat) (h : List Nat)
    (ks : Nat → Nat) (c : List Nat) :
    ghash_finalize mul h (stOf mul h ks c).gh (stOf mul h ks c).total =
      ghFold mul h (List.replicate 16 0) (gcmPadBlocks c ++ [lenBlock c.length]) := by
  unfold ghash_finalize stOf gcmPadBlocks
  by_cases hrem : (splitBlocks c).2.isEmpty
  · simp only [hrem, if_true, ghFold_append]
    rfl
  · simp only [hrem, if_false, ghFold_append, Bool.false_eq_true]

theorem decrypt_core_eq (P : Prims) (sorted : List PartInfo) (cache : Nat → Option (List Nat))
    (key iv tagB : List Nat) (fidx : Option Nat) (fs : FS) (bl : List (List Nat))
    (hbl : partsBytes cache sorted = some bl) :
    decrypt_core P sorted cache key iv tagB fidx fs =
      decryptOutcome P key iv tagB fidx fs bl.flatten := by
  have hrun := processParts_ok P.gfMul (P.aes key (List.replicate 16 0))
    (ctrKs P.aes key (beBytesToNat (inc32 (iv ++ [0, 0, 0, 1])))) cache sorted bl hbl []
  rw [List.nil_append] at hrun
  have hexp : xorB (ghash_finalize P.gfMul (P.aes key (List.replicate 16 0))
      (stOf P.gfMul (P.aes key (List.replicate 16 0))
        (ctrKs P.aes key (beBytesToNat (inc32 (iv ++ [0, 0, 0, 1])))) bl.flatten).gh
      (stOf P.gfMul (P.aes key (List.replicate 16 0))
        (ctrKs P.aes key (beBytesToNat (inc32 (iv ++ [0, 0, 0, 1])))) bl.flatten).total)
      (P.aes key (iv ++ [0, 0, 0, 1])) = gcmTag P.aes P.gfMul key iv bl.flatten := by
    rw [ghash_finalize_stOf]
    rfl
  have hinit : (⟨(List.replicate 16 0, []), 0, 0, []⟩ : PSt) =
      stOf P.gfMul (P.aes key (List.replicate 16 0))
        (ctrKs P.aes key (beBytesToNat (inc32 (iv ++ [0, 0, 0, 1])))) [] := rfl
  unfold decrypt_core decryptOutcome
  rw [hinit]
  simp only []
  rw [hrun]
  simp only []
  rw [hexp]
  by_cases hc : gcmTag P.aes P.gfMul key iv bl.flatten = tagB
  · simp only [hc, ne_eq, not_true_eq_false, if_false, ite_true]
    rfl
  · simp only [hc, ne_eq, not_false_eq_true, if_true, ite_false]

/-! ## Lemmas: the round-trip manifest -/

theorem mkPartsFrom_mem_ge (pieces : List (List Nat)) : ∀ k q, q ∈ mkPartsFrom k pieces → k ≤ q.index := by
  induction pieces with
  | nil => intro k q hq; simp [mkPartsFrom] at hq
  | cons b rest ih =>
    intro k q hq
    simp only [mkPartsFrom, List.mem_cons] at hq
    rcases hq with h | h
    · subst h; exact le_refl k
    · exact Nat.le_of_succ_le (ih (k + 1) q h)

theorem mkPartsFrom_sorted (pieces : List (List Nat)) : ∀ k,
    List.Sorted (fun a b : PartInfo => a.index ≤ b.index) (mkPartsFrom k pieces) := by
  induction pieces with
  | nil => intro k; simp [mkPartsFrom]
  | cons b rest ih =>
    intro k
    simp only [mkPartsFrom]
    refine List.sorted_cons.mpr ⟨?_, ih (k + 1)⟩
    intro q hq
    have := mkPartsFrom_mem_ge rest (k + 1) q hq
    show k ≤ q.index
    omega

theorem sortByIndex_mkParts (pieces : List (List Nat)) :
    sortByIndex (mkParts pieces) = mkParts pieces := by
  unfold sortByIndex mkParts
  exact List.Sorted.insertionSort_eq (mkPartsFrom_sorted pieces 0)

theorem partsBytes_mkPartsFrom (pieces : List (List Nat)) : ∀ (suf pre : List (List Nat)),
    pieces = pre ++ suf →
    partsBytes (cacheOf pieces) (mkPartsFrom pre.length suf) = some suf := by
  intro suf
  induction suf with
  | nil => intro pre h; rfl
  | cons b rest ih =>
    intro pre h
    have hc : cacheOf pieces pre.length = some b := by
      subst h
      show (pre ++ b :: rest)[pre.length]? = some b
      rw [List.getElem?_append_right (le_refl _)]
      simp
    have hrec := ih (pre ++ [b]) (by rw [h, List.append_assoc]; rfl)
    rw [List.length_append, List.length_singleton] at hrec
    show partsBytes (cacheOf pieces)
        ({ index := pre.length, size := b.length, hash := "", url := "" } ::
          mkPartsFrom (pre.length + 1) rest) = some (b :: rest)
    unfold partsBytes
    rw [show ({ index := pre.length, size := b.length, hash := "", url := "" } : PartInfo).index =
        pre.length from rfl, hc, hrec]

theorem partsBytes_mkParts (pieces : List (List Nat)) :
    partsBytes (cacheOf pieces) (mkParts pieces) = some pieces := by
  have := partsBytes_mkPartsFrom pieces pieces [] (by simp)
  simpa [mkParts] using this

theorem gcmKs_eq_ctrKs (aes : List Nat → List Nat → List Nat) (key iv : List Nat)
    (h12 : iv.length = 12) (hb : ∀ b ∈ iv, b < 256) (i : Nat) (hi : i / 16 + 2 < 2 ^ 32) :
    ctrKs aes key (beBytesToNat (inc32 (iv ++ [0, 0, 0, 1]))) i = gcmKs aes key iv i := by
  have hj0 : inc32 (iv ++ [0, 0, 0, 1]) = iv ++ natToBeBytes 2 4 := by
    rw [inc32_on_append iv [0, 0, 0, 1] h12]
    norm_num [beBytesToNat]
  unfold ctrKs gcmKs
  rw [Function.iterate_succ_apply, hj0, ctr_counter_eq iv h12 hb (i / 16) hi]

theorem roundtrip_written (aes : List Nat → List Nat → List Nat) (key iv p : List Nat)
    (h12 : iv.length = 12) (hb : ∀ b ∈ iv, b < 256) (hplen : p.length ≤ 16 * (2 ^ 32 - 2)) :
    ctrApply (ctrKs aes key (beBytesToNat (inc32 (iv ++ [0, 0, 0, 1])))) 0
      (gcmCipher aes key iv p) = p := by
  have hlen : (gcmCipher aes key iv p).length = p.length := by
    unfold gcmCipher; exact ctrApply_length _ _ _
  rw [ctrApply_congr (ctrKs aes key (beBytesToNat (inc32 (iv ++ [0, 0, 0, 1]))))
    (gcmKs aes key iv) (gcmCipher aes key iv p) 0 ?_]
  · unfold gcmCipher
    exact ctrApply_involution _ _ _
  · intro i h0 hi
    apply gcmKs_eq_ctrKs aes key iv h12 hb
    rw [Nat.zero_add, hlen] at hi
    have hi16 : i / 16 < 2 ^ 32 - 2 := by
      rw [Nat.div_lt_iff_lt_mul (by norm_num : (0:Nat) < 16)]
      omega
    omega

theorem decrypt_parts_valid (P : Prims) (resp : PartsResponse) (cache : Nat → Option (List Nat))
    (mk : String) (fidx : Option Nat) (fs : FS) (ivB tagB : List Nat)
    (hiv : P.b64 resp.iv = .ok ivB) (htag : P.b64 resp.authTag = .ok tagB)
    (h12 : ivB.length = 12) (h16 : tagB.length = 16) :
    decrypt_parts P resp cache mk fidx fs =
      decrypt_core P (sortByIndex resp.parts) cache (derive_key mk) ivB tagB fidx fs := by
  unfold decrypt_parts
  rw [hiv]
  simp only []
  rw [htag]
  simp only [h12, h16]
  norm_num

/-- C1: decrypt round-trip.  For every block cipher standing for AES-256
under the key SHA-256(master key), every GHASH multiply, every 12-byte IV
(of genuine bytes) and plaintext `p` within GCM's length domain: if the
ciphertext produced by the reference AES-256-GCM encryption is split into
any sequence of pieces stored at indices 0, 1, 2, ... of the part cache,
and the manifest's IV and auth tag decode to the matching IV and the
reference GCM tag, then `decrypt_parts` succeeds and installs exactly `p`
at the output path, deleting the intermediate. -/
theorem decrypt_roundtrip (P : Prims) (mk ivS tagS : String) (ivB p : List Nat)
    (pieces : List (List Nat)) (fs : FS)
    (hivS : P.b64 ivS = .ok ivB) (h12 : ivB.length = 12) (hb : ∀ b ∈ ivB, b < 256)
    (hplen : p.length ≤ 16 * (2 ^ 32 - 2))
    (htagS : P.b64 tagS = .ok (gcmTag P.aes P.gfMul (derive_key mk) ivB
      (gcmCipher P.aes (derive_key mk) ivB p)))
    (h16 : (gcmTag P.aes P.gfMul (derive_key mk) ivB
      (gcmCipher P.aes (derive_key mk) ivB p)).length = 16)
    (hjoin : pieces.flatten = gcmCipher P.aes (derive_key mk) ivB p) :
    decrypt_parts P { iv := ivS, authTag := tagS, parts := mkParts pieces }
      (cacheOf pieces) mk none fs = (.ok (), { tmp := none, out := some p }) := by
  rw [decrypt_parts_valid P { iv := ivS, authTag := tagS, parts := mkParts pieces }
      (cacheOf pieces) mk none fs ivB _ hivS htagS h12 h16]
  rw [decrypt_core_eq P _ (cacheOf pieces) (derive_key mk) ivB _ none fs pieces
      (by rw [show ({ iv := ivS, authTag := tagS, parts := mkParts pieces } :
            PartsResponse).parts = mkParts pieces from rfl, sortByIndex_mkParts]
          exact partsBytes_mkParts pieces)]
  unfold decryptOutcome
  simp only []
  rw [hjoin, if_pos rfl, roundtrip_written P.aes (derive_key mk) ivB p h12 hb hplen]

/-- Witness for C1: a concrete two-piece round trip under the degenerate
primitives (plaintext `[1, 2, 3]`, pieces `[1]` and `[2, 3]`). -/
theorem decrypt_roundtrip_witness :
    decrypt_parts zeroPrims { iv := "IV", authTag := "TAG", parts := mkParts [[1], [2, 3]] }
      (cacheOf [[1], [2, 3]]) "mk" none { tmp := none, out := none } =
      (.ok (), { tmp := none, out := some [1, 2, 3] }) :=
  decrypt_roundtrip zeroPrims "mk" "IV" "TAG" (List.replicate 12 0) [1, 2, 3] [[1], [2, 3]]
    { tmp := none, out := none } rfl (by decide) (by decide) (by decide) rfl rfl rfl

/-- C2: for every manifest whose IV decodes to 12 bytes and auth tag to 16
bytes, with every part present in the cache, `decrypt_parts` fails with
`auth_tag_mismatch` if and only if the GCM tag computed over the
concatenated ciphertext differs from the manifest tag; and in that case
the partially-written plaintext is deleted and the destination path is
untouched.  (The side condition on `extractZip` records that the zip
crate's error strings are never the literal `auth_tag_mismatch`.) -/
theorem auth_tag_mismatch_iff (P : Prims) (resp : PartsResponse)
    (cache : Nat → Option (List Nat)) (mk : String) (fidx : Option Nat) (fs : FS)
    (ivB tagB : List Nat) (bl : List (List Nat))
    (hiv : P.b64 resp.iv = .ok ivB) (htag : P.b64 resp.authTag = .ok tagB)
    (h12 : ivB.length = 12) (h16 : tagB.length = 16)
    (hbl : partsBytes cache (sortByIndex resp.parts) = some bl)
    (hext : ∀ b i e, P.extractZip b i = .error e → e ≠ "auth_tag_mismatch") :
    ((decrypt_parts P resp cache mk fidx fs).1 = .error "auth_tag_mismatch" ↔
      gcmTag P.aes P.gfMul (derive_key mk) ivB bl.flatten ≠ tagB) ∧
    (gcmTag P.aes P.gfMul (derive_key mk) ivB bl.flatten ≠ tagB →
      decrypt_parts P resp cache mk fidx fs =
        (.error "auth_tag_mismatch", { tmp := none, out := fs.out })) := by
  rw [decrypt_parts_valid P resp cache mk fidx fs ivB tagB hiv htag h12 h16,
      decrypt_core_eq P (sortByIndex resp.parts) cache (derive_key mk) ivB tagB fidx fs bl hbl]
  unfold decryptOutcome
  by_cases hc : gcmTag P.aes P.gfMul (derive_key mk) ivB bl.flatten = tagB
  · rw [if_pos hc]
    constructor
    · constructor
      · intro habs
        cases fidx with
        | none => simp at habs
        | some idx =>
          simp only [] at habs
          cases hez : P.extractZip (ctrApply (ctrKs P.aes (derive_key mk)
              (beBytesToNat (inc32 (ivB ++ [0, 0, 0, 1])))) 0 bl.flatten) idx with
          | ok entry => rw [hez] at habs; simp at habs
          | error e =>
            rw [hez] at habs
            simp at habs
            exact absurd habs (hext _ _ _ hez)
      · intro habs; exact absurd hc habs
    · intro habs; exact absurd hc habs
  · rw [if_neg hc]
    exact ⟨by simp [hc], fun _ => rfl⟩

/-- Witness for C2: under the degenerate primitives the computed tag is
the zero block, so a manifest tag of `1 :: 0...` mismatches: the decryptor
fails with `auth_tag_mismatch`, deletes the intermediate and leaves the
output slot unchanged. -/
theorem auth_tag_mismatch_iff_witness :
    (decrypt_parts zeroPrims { iv := "IV", authTag := "TAGX", parts := mkParts [[4]] }
      (cacheOf [[4]]) "mk" none { tmp := none, out := some [9] }).1 =
        .error "auth_tag_mismatch" ∧
    decrypt_parts zeroPrims { iv := "IV", authTag := "TAGX", parts := mkParts [[4]] }
      (cacheOf [[4]]) "mk" none { tmp := none, out := some [9] } =
      (.error "auth_tag_mismatch", { tmp := none, out := some [9] }) := by
  have h := auth_tag_mismatch_iff zeroPrims
    { iv := "IV", authTag := "TAGX", parts := mkParts [[4]] } (cacheOf [[4]]) "mk" none
    { tmp := none, out := some [9] } (List.replicate 12 0) (1 :: List.replicate 15 0) [[4]]
    rfl rfl (by decide) (by decide)
    (by rw [show ({ iv := "IV", authTag := "TAGX", parts := mkParts [[4]] } :
          PartsResponse).parts = mkParts [[4]] from rfl, sortByIndex_mkParts]
        exact partsBytes_mkParts [[4]])
    (fun b i e he => by
      simp only [zeroPrims] at he
      exact absurd he (by simp))
  refine ⟨h.1.mpr (by decide), h.2 (by decide)⟩

/-- C10: `decrypt_parts` validates the decoded IV (12 bytes, else
`invalid_iv`) and auth tag (16 bytes, else `invalid_auth_tag`) before
opening or truncating any file, and likewise propagates base64 decode
failures first: in all four cases the filesystem state is returned
exactly as it was. -/
theorem decrypt_validates_before_write (P : Prims) (resp : PartsResponse)
    (cache : Nat → Option (List Nat)) (mk : String) (fidx : Option Nat) (fs : FS) :
    (∀ e, P.b64 resp.iv = .error e →
       decrypt_parts P resp cache mk fidx fs = (.error e, fs)) ∧
    (∀ ivB e, P.b64 resp.iv = .ok ivB → P.b64 resp.authTag = .error e →
       decrypt_parts P resp cache mk fidx fs = (.error e, fs)) ∧
    (∀ ivB tagB, P.b64 resp.iv = .ok ivB → P.b64 resp.authTag = .ok tagB → ivB.length ≠ 12 →
       decrypt_parts P resp cache mk fidx fs = (.error "invalid_iv", fs)) ∧
    (∀ ivB tagB, P.b64 resp.iv = .ok ivB → P.b64 resp.authTag = .ok tagB → ivB.length = 12 →
       tagB.length ≠ 16 →
       decrypt_parts P resp cache mk fidx fs = (.error "invalid_auth_tag", fs)) := by
  refine ⟨?_, ?_, ?_, ?_⟩
  · intro e he
    unfold decrypt_parts
    rw [he]
  · intro ivB e hiv he
    unfold decrypt_parts
    rw [hiv]
    simp only []
    rw [he]
  · intro ivB tagB hiv htag hlen
    unfold decrypt_parts
    rw [hiv]
    simp only []
    rw [htag]
    simp only [if_pos hlen]
  · intro ivB tagB hiv htag hlen12 hlen16
    unfold decrypt_parts
    rw [hiv]
    simp only []
    rw [htag]
    simp only [hlen12]
    rw [if_neg (by norm_num : ¬(12 : Nat) ≠ 12), if_pos hlen16]

/-- Witness for C10: a manifest whose IV field does not base64-decode is
rejected with the decode error and the filesystem untouched. -/
theorem decrypt_validates_before_write_witness :
    decrypt_parts zeroPrims { iv := "ZZ", authTag := "TAG", parts := [] } (fun _ => none)
      "mk" none { tmp := some [1], out := some [2] } =
      (.error "bad_base64", { tmp := some [1], out := some [2] }) :=
  (decrypt_validates_before_write zeroPrims { iv := "ZZ", authTag := "TAG", parts := [] }
    (fun _ => none) "mk" none { tmp := some [1], out := some [2] }).1 "bad_base64" rfl

/-! ## Lemmas: the filename sanitizer -/

theorem invalid_utf8Size {c : Char} (h : invalidChar c = true) : c.utf8Size = 1 := by
  simp only [invalidChar, Bool.or_eq_true, beq_iff_eq] at h
  rcases h with ((((((((h | h) | h) | h) | h) | h) | h) | h) | h) <;> subst h <;> decide

theorem byteLen_replace (name : List Char) :
    byteLen (name.map (fun c => if invalidChar c then '_' else c)) = byteLen name := by
  induction name with
  | nil => rfl
  | cons c rest ih =>
    simp only [List.map_cons, byteLen, List.sum_cons] at ih ⊢
    rw [show ((if invalidChar c then '_' else c).utf8Size) = c.utf8Size by
      by_cases hc : invalidChar c
      · rw [if_pos hc, invalid_utf8Size hc]; rfl
      · rw [if_neg hc]]
    omega

theorem byteLen_sublist {a b : List Char} (h : a.Sublist b) : byteLen a ≤ byteLen b := by
  induction h with
  | slnil => exact le_refl _
  | cons c _ ih =>
    simp only [byteLen, List.map_cons, List.sum_cons] at ih ⊢
    omega
  | cons₂ c _ ih =>
    simp only [byteLen, List.map_cons, List.sum_cons] at ih ⊢
    omega

theorem byteLen_reverse (l : List Char) : byteLen l.reverse = byteLen l := by
  unfold byteLen
  rw [List.map_reverse, List.sum_reverse]

theorem dropWhile_head_not (p : Char → Bool) : ∀ (l : List Char) c,
    (l.dropWhile p).head? = some c → p c = false := by
  intro l
  induction l with
  | nil => intro c h; simp at h
  | cons a rest ih =>
    intro c h
    by_cases ha : p a
    · rw [List.dropWhile_cons_of_pos ha] at h
      exact ih c h
    · rw [List.dropWhile_cons_of_neg ha] at h
      simp only [List.head?_cons, Option.some.injEq] at h
      subst h
      simpa using ha

theorem dropWhile_of_head_not (p : Char → Bool) (l : List Char)
    (h : ∀ c, l.head? = some c → p c = false) : l.dropWhile p = l := by
  cases l with
  | nil => rfl
  | cons a rest =>
    rw [List.dropWhile_cons_of_neg]
    simp [h a rfl]

theorem resEntry_underscore (r : String) (hne : r.data ≠ []) (hr : r.data.head? ≠ some '_')
    (l : List Char) :
    (('_' :: l) == r.data || startsWithList (r.data ++ ['.']) ('_' :: l)) = false := by
  cases hd : r.data with
  | nil => exact absurd hd hne
  | cons c cs =>
    rw [hd] at hr
    have hc : ¬c = '_' := fun e => hr (by rw [e]; rfl)
    simp only [List.cons_append, startsWithList, Bool.or_eq_false_iff, Bool.and_eq_false_iff]
    constructor
    · rw [beq_eq_false_iff_ne]
      intro e
      exact hc (List.cons.inj e).1.symm
    · left
      rw [beq_eq_false_iff_ne]
      exact fun e => hc e

theorem reservedHit_underscore (l : List Char) : reservedHit ('_' :: l) = false := by
  rw [reservedHit, List.any_eq_false]
  intro r hr
  simp only [reservedNames, List.mem_cons, List.not_mem_nil, or_false] at hr
  simp only [Bool.not_eq_true]
  rcases hr with rfl | rfl | rfl | rfl | rfl | rfl | rfl | rfl | rfl | rfl | rfl | rfl | rfl |
    rfl | rfl | rfl | rfl | rfl | rfl | rfl | rfl | rfl <;>
    exact resEntry_underscore _ (by decide) (by decide) l

theorem byteLen_cons (c : Char) (l : List Char) : byteLen (c :: l) = c.utf8Size + byteLen l := by
  simp [byteLen]

theorem map_replace_id (l : List Char) (h : ∀ c ∈ l, invalidChar c = false) :
    l.map (fun c => if invalidChar c then '_' else c) = l := by
  induction l with
  | nil => rfl
  | cons c rest ih =>
    simp only [List.map_cons]
    rw [if_neg (by simp [h c (List.mem_cons_self _ _)]),
        ih (fun x hx => h x (List.mem_cons_of_mem _ hx))]

theorem sanitize_tail (s3 : List Char) (hne : s3 ≠ []) (hlen : byteLen s3 ≤ 254)
    (hinv : ∀ c ∈ s3, invalidChar c = false)
    (hlast : ∀ c, s3.getLast? = some c → (c == '.' || c == ' ') = false) :
    ∃ r, (if byteLen (if reservedHit (s3.map Char.toUpper) then '_' :: s3 else s3) > 255 then
            truncateBytes 255 (if reservedHit (s3.map Char.toUpper) then '_' :: s3 else s3)
          else some (if reservedHit (s3.map Char.toUpper) then '_' :: s3 else s3)) = some r ∧
      r ≠ [] ∧ byteLen r ≤ 255 ∧ (∀ c ∈ r, invalidChar c = false) ∧
      (∀ c, r.getLast? = some c → (c == '.' || c == ' ') = false) ∧
      reservedHit (r.map Char.toUpper) = false := by
  by_cases hres : reservedHit (s3.map Char.toUpper)
  · have hblen : byteLen ('_' :: s3) ≤ 255 := by
      rw [byteLen_cons]
      have : ('_' : Char).utf8Size = 1 := by decide
      omega
    refine ⟨'_' :: s3, ?_, by simp, hblen, ?_, ?_, ?_⟩
    · rw [if_pos hres, if_neg (by omega)]
    · intro c hc
      rcases List.mem_cons.mp hc with rfl | hc
      · decide
      · exact hinv c hc
    · intro c hc
      cases s3 with
      | nil => exact absurd rfl hne
      | cons x xs =>
        rw [List.getLast?_cons_cons] at hc
        exact hlast c hc
    · rw [List.map_cons, show Char.toUpper '_' = '_' from by decide]
      exact reservedHit_underscore _
  · refine ⟨s3, ?_, hne, by omega, hinv, hlast, eq_false_of_ne_true hres⟩
    rw [if_neg hres, if_neg (by omega)]

theorem sanitizeChars_short (name : List Char) (h : byteLen name ≤ 254) :
    ∃ r, sanitizeChars name = some r ∧ r ≠ [] ∧ byteLen r ≤ 255 ∧
      (∀ c ∈ r, invalidChar c = false) ∧
      (∀ c, r.getLast? = some c → (c == '.' || c == ' ') = false) ∧
      reservedHit (r.map Char.toUpper) = false := by
  have h1len : byteLen (name.map (fun c => if invalidChar c then '_' else c)) ≤ 254 := by
    rw [byteLen_replace]; exact h
  have h1inv : ∀ c ∈ name.map (fun c => if invalidChar c then '_' else c),
      invalidChar c = false := by
    intro c hc
    rcases List.mem_map.mp hc with ⟨a, _, rfl⟩
    by_cases ha : invalidChar a
    · rw [if_pos ha]; decide
    · rw [if_neg ha]; exact eq_false_of_ne_true ha
  have h2len : byteLen (((name.map (fun c => if invalidChar c then '_' else c)).reverse.dropWhile
      (fun c => c == '.' || c == ' ')).reverse) ≤ 254 := by
    rw [byteLen_reverse]
    exact le_trans (byteLen_sublist (List.dropWhile_sublist _)) (by rw [byteLen_reverse]; exact h1len)
  have h2inv : ∀ c ∈ ((name.map (fun c => if invalidChar c then '_' else c)).reverse.dropWhile
      (fun c => c == '.' || c == ' ')).reverse, invalidChar c = false := by
    intro c hc
    exact h1inv c (List.mem_reverse.mp (List.dropWhile_subset _ (List.mem_reverse.mp hc)))
  have h2last : ∀ c, (((name.map (fun c => if invalidChar c then '_' else c)).reverse.dropWhile
      (fun c => c == '.' || c == ' ')).reverse).getLast? = some c →
      (c == '.' || c == ' ') = false := by
    intro c hc
    rw [List.getLast?_reverse] at hc
    exact dropWhile_head_not _ _ c hc
  have h3 := sanitize_tail
    (if (((name.map (fun c => if invalidChar c then '_' else c)).reverse.dropWhile
        (fun c => c == '.' || c == ' ')).reverse).isEmpty then ['_']
     else ((name.map (fun c => if invalidChar c then '_' else c)).reverse.dropWhile
        (fun c => c == '.' || c == ' ')).reverse)
    (by split
        · simp
        · rename_i he
          exact fun hnil => he (by rw [hnil]; rfl))
    (by split
        · decide
        · exact h2len)
    (by split
        · intro c hc
          rcases List.mem_singleton.mp hc with rfl
          decide
        · exact h2inv)
    (by split
        · intro c hc
          simp only [List.getLast?_singleton, Option.some.injEq] at hc
          subst hc
          decide
        · exact h2last)
  obtain ⟨r, hr, hprops⟩ := h3
  exact ⟨r, hr, hprops⟩

theorem sanitizeChars_fixed (r : List Char) (hne : r ≠ []) (hlen : byteLen r ≤ 255)
    (hinv : ∀ c ∈ r, invalidChar c = false)
    (hlast : ∀ c, r.getLast? = some c → (c == '.' || c == ' ') = false)
    (hres : reservedHit (r.map Char.toUpper) = false) :
    sanitizeChars r = some r := by
  have h1 : r.map (fun c => if invalidChar c then '_' else c) = r := map_replace_id r hinv
  have h2 : (r.reverse.dropWhile (fun c => c == '.' || c == ' ')).reverse = r := by
    rw [dropWhile_of_head_not _ r.reverse
      (fun c hc => hlast c (by rwa [List.head?_reverse] at hc)), List.reverse_reverse]
  have hie : r.isEmpty = false := by
    cases r with
    | nil => exact absurd rfl hne
    | cons a l => rfl
  unfold sanitizeChars
  simp only [h1, h2, hie, Bool.false_eq_true, if_false, hres, if_neg (by omega : ¬byteLen r > 255)]

/-- C6 (amended): for every input of at most 254 UTF-8 bytes (so that the
255-byte truncation step never fires), `sanitize_filename` returns
normally and its output is non-empty, at most 255 bytes, free of the
invalid characters, does not end in `.` or space, and is not a
Windows-reserved name.  For longer inputs the claim fails: truncation can
panic mid-character or leave a trailing dot (see the counterexample). -/
theorem sanitize_total_short (s : String) (h : byteLen s.data ≤ 254) :
    ∃ r : List Char, sanitize_filename s = some (String.mk r) ∧ r ≠ [] ∧ byteLen r ≤ 255 ∧
      (∀ c ∈ r, invalidChar c = false) ∧ r.getLast? ≠ some '.' ∧ r.getLast? ≠ some ' ' ∧
      reservedHit (r.map Char.toUpper) = false := by
  obtain ⟨r, hr, hne, hlen, hinv, hlast, hres⟩ := sanitizeChars_short s.data h
  refine ⟨r, ?_, hne, hlen, hinv, ?_, ?_, hres⟩
  · unfold sanitize_filename
    rw [hr]
    rfl
  · exact fun hd => absurd (hlast '.' hd) (by decide)
  · exact fun hd => absurd (hlast ' ' hd) (by decide)

/-- Witness for C6 at the concrete input `"a<b."`. -/
theorem sanitize_total_short_witness :
    byteLen "a<b.".data ≤ 254 ∧
    ∃ r : List Char, sanitize_filename "a<b." = some (String.mk r) ∧ r ≠ [] ∧
      byteLen r ≤ 255 ∧ (∀ c ∈ r, invalidChar c = false) ∧ r.getLast? ≠ some '.' ∧
      r.getLast? ≠ some ' ' ∧ reservedHit (r.map Char.toUpper) = false :=
  ⟨by decide, sanitize_total_short "a<b." (by decide)⟩

set_option maxRecDepth 20000 in
/-- Counterexample to C6 as stated: for the 256-byte name of 254 `a`s
followed by `.x`, the sanitizer's truncation leaves a trailing dot; and
for 254 `a`s followed by the two-byte character `é`, `String::truncate`
panics (the sanitizer is not total).  -/
theorem sanitize_long_input_cex :
    sanitize_filename (String.mk cexLongName) = some cexOnce ∧
    cexOnce.data.getLast? = some '.' ∧
    sanitize_filename (String.mk cexPanicName) = none := by
  refine ⟨by decide, by decide, by decide⟩

/-- C7 (amended): `sanitize_filename` is idempotent on every input of at
most 254 UTF-8 bytes; on longer inputs idempotence fails because the
truncation step can leave a trailing dot that a second pass trims (see
the counterexample). -/
theorem sanitize_idempotent_short (s : String) (h : byteLen s.data ≤ 254) :
    ∃ r : String, sanitize_filename s = some r ∧ sanitize_filename r = some r := by
  obtain ⟨r, hr, hne, hlen, hinv, hlast, hres⟩ := sanitizeChars_short s.data h
  refine ⟨String.mk r, ?_, ?_⟩
  · unfold sanitize_filename
    rw [hr]
    rfl
  · unfold sanitize_filename
    rw [show (String.mk r).data = r from rfl,
        sanitizeChars_fixed r hne (by omega) hinv hlast hres]
    rfl

/-- Witness for C7 at the concrete input `"a<b."`. -/
theorem sanitize_idempotent_short_witness :
    byteLen "a<b.".data ≤ 254 ∧
    ∃ r : String, sanitize_filename "a<b." = some r ∧ sanitize_filename r = some r :=
  ⟨by decide, sanitize_idempotent_short "a<b." (by decide)⟩

set_option maxRecDepth 20000 in
/-- Counterexample to C7 as stated: sanitizing the 256-byte name of 254
`a`s followed by `.x` yields `254 a's ++ "."`, but sanitizing that output
again trims the trailing dot, so `sanitize(sanitize s) ≠ sanitize s`. -/
theorem sanitize_not_idempotent_cex :
    sanitize_filename (String.mk cexLongName) = some cexOnce ∧
    sanitize_filename cexOnce = some cexTwice ∧ cexTwice ≠ cexOnce := by
  refine ⟨by decide, by decide, by decide⟩

/-! ## Lemmas: driver traces -/

theorem progressDownloads_append (a b : List Act) :
    progressDownloads (a ++ b) = progressDownloads a ++ progressDownloads b := by
  induction a with
  | nil => rfl
  | cons x rest ih => cases x <;> simp [progressDownloads, ih]

theorem progressStatuses_append (a b : List Act) :
    progressStatuses (a ++ b) = progressStatuses a ++ progressStatuses b := by
  induction a with
  | nil => rfl
  | cons x rest ih => cases x <;> simp [progressStatuses, ih]

theorem chain_le_append {l m : List Nat} (hc : List.Chain' (· ≤ ·) l)
    (hm : List.Chain' (· ≤ ·) m) (hb : ∀ x ∈ l, ∀ y ∈ m, x ≤ y) :
    List.Chain' (· ≤ ·) (l ++ m) := by
  refine List.Chain'.append hc hm ?_
  intro x hx y hy
  obtain ⟨hne, hx'⟩ := List.mem_getLast?_eq_getLast hx
  exact hx' ▸ hb _ (List.getLast_mem hne) y (List.mem_of_mem_head? hy)

theorem tinv_extend {t : List Act} {d : Nat} (h : TInv t d) (ext : List Act) (d' : Nat)
    (hd : d ≤ d')
    (hv : ∀ v ∈ progressDownloads ext, d ≤ v ∧ v ≤ d')
    (hchain : List.Chain' (· ≤ ·) (progressDownloads ext))
    (hs : ∀ s ∈ progressStatuses ext,
        s ∈ (["downloading", "paused", "error", "completed"] : List String)) :
    TInv (t ++ ext) d' := by
  obtain ⟨hc, hb, hst⟩ := h
  refine ⟨?_, ?_, ?_⟩ <;> simp only [progressDownloads_append, progressStatuses_append]
  · exact chain_le_append hc hchain (fun x hx y hy => le_trans (hb x hx) (hv y hy).1)
  · intro v hv'
    rcases List.mem_append.mp hv' with hmem | hmem
    · exact le_trans (hb v hmem) hd
    · exact (hv v hmem).2
  · intro s hs'
    rcases List.mem_append.mp hs' with hmem | hmem
    · exact hst s hmem
    · exact hs s hmem

theorem tinv_mono {t : List Act} {d d' : Nat} (h : TInv t d) (hd : d ≤ d') : TInv t d' :=
  ⟨h.1, fun v hv => le_trans (h.2.1 v hv) hd, h.2.2⟩

theorem directPhase_plain (p : PartInfo) (o : IterOracle) (st : DriverState) :
    (directPhase p o st).2.downloaded = st.downloaded ∧
    progressDownloads (directPhase p o st).2.trace = progressDownloads st.trace ∧
    progressStatuses (directPhase p o st).2.trace = progressStatuses st.trace := by
  unfold directPhase
  by_cases hs : shouldTryDirect o st
  · rw [if_pos hs]
    rcases hd1 : download_part_direct o.direct1 o.direct1Cancels (st.cache p.index) with ⟨r1, f1⟩
    cases r1 with
    | ok u =>
      simp [hd1, progressDownloads_append, progressStatuses_append, progressDownloads,
        progressStatuses]
    | error e =>
      by_cases he : e = "expired"
      · cases hrf : o.refresh with
        | ok url =>
          rcases hd2 : download_part_direct o.direct2 o.direct2Cancels
              (updateCache st.cache p.index f1 p.index) with ⟨r2, f2⟩
          cases r2 <;>
            simp [hd1, hrf, hd2, he, progressDownloads_append, progressStatuses_append,
              progressDownloads, progressStatuses, List.append_assoc]
        | error e2 =>
          simp [hd1, hrf, he, progressDownloads_append, progressStatuses_append,
            progressDownloads, progressStatuses]
      · simp [hd1, he, progressDownloads_append, progressStatuses_append, progressDownloads,
          progressStatuses]
  · rw [if_neg hs]
    simp

theorem afterFetch_inv (tot : Option Nat) (p : PartInfo) (o : IterOracle) (st : DriverState)
    (hInv : TraceInv st) :
    TraceInv (afterFetch tot p o st).state ∧
    st.downloaded ≤ (afterFetch tot p o st).state.downloaded ∧
    (afterFetch tot p o st).state.downloaded ≤ st.downloaded + p.size := by
  unfold afterFetch
  by_cases hv : verifiedMismatch (verify_part_hash (st.cache p.index) o.fetchReadErr p.hash)
  · rw [if_pos hv]
    refine ⟨?_, le_refl _, Nat.le_add_right _ _⟩
    show TInv (st.trace ++ [Act.progress st.downloaded tot 0 "error", Act.setStatus "error"])
      st.downloaded
    refine tinv_extend hInv _ _ (le_refl _) ?_ ?_ ?_
    · intro v hv'
      simp [progressDownloads] at hv'
      subst hv'
      exact ⟨le_refl _, le_refl _⟩
    · simp [progressDownloads]
    · intro s hs
      simp [progressStatuses] at hs
      subst hs
      decide
  · rw [if_neg hv]
    by_cases ht : o.tick
    · rw [if_pos ht]
      refine ⟨?_, Nat.le_add_right _ _, le_refl _⟩
      show TInv (st.trace ++ [Act.progress (st.downloaded + p.size) tot o.speedVal "downloading"])
        (st.downloaded + p.size)
      refine tinv_extend hInv _ _ (Nat.le_add_right _ _) ?_ ?_ ?_
      · intro v hv'
        simp [progressDownloads] at hv'
        subst hv'
        exact ⟨Nat.le_add_right _ _, le_refl _⟩
      · simp [progressDownloads]
      · intro s hs
        simp [progressStatuses] at hs
        subst hs
        decide
    · rw [if_neg ht]
      exact ⟨tinv_mono hInv (Nat.le_add_right _ _), Nat.le_add_right _ _, le_refl _⟩

theorem fetchPhase_inv (tot : Option Nat) (p : PartInfo) (o : IterOracle) (st : DriverState)
    (hInv : TraceInv st) :
    TraceInv (fetchPhase tot p o st).state ∧
    st.downloaded ≤ (fetchPhase tot p o st).state.downloaded ∧
    (fetchPhase tot p o st).state.downloaded ≤ st.downloaded + p.size := by
  unfold fetchPhase
  simp only []
  obtain ⟨hdd, hdp, hds⟩ := directPhase_plain p o st
  have hdpInv : TraceInv (directPhase p o st).2 := by
    unfold TraceInv TInv at hInv ⊢
    rw [hdp, hds, hdd]
    exact hInv
  by_cases hok : (directPhase p o st).1
  · rw [if_pos hok]
    have h := afterFetch_inv tot p o (directPhase p o st).2 hdpInv
    rw [hdd] at h
    exact h
  · rw [if_neg hok]
    have h1 : TInv ((directPhase p o st).2.trace ++ [Act.relayAttempt p.index])
        st.downloaded := by
      have := tinv_extend (t := (directPhase p o st).2.trace)
        (d := (directPhase p o st).2.downloaded) hdpInv [Act.relayAttempt p.index]
        (directPhase p o st).2.downloaded (le_refl _)
        (by intro v hv'; simp [progressDownloads] at hv')
        (by simp [progressDownloads])
        (by intro s hs; simp [progressStatuses] at hs)
      rwa [hdd] at this
    rcases hrel : download_part_relay o.relay o.relayCancels
        ((directPhase p o st).2.cache p.index) with ⟨rr, f⟩
    cases rr with
    | error e =>
      simp only [IterResult.state]
      rw [hdd]
      refine ⟨?_, le_refl _, Nat.le_add_right _ _⟩
      show TInv ((directPhase p o st).2.trace ++ [Act.relayAttempt p.index] ++
        [Act.progress st.downloaded tot 0 "error", Act.setStatus "error"]) st.downloaded
      refine tinv_extend h1 _ _ (le_refl _) ?_ ?_ ?_
      · intro v hv'
        simp [progressDownloads] at hv'
        subst hv'
        exact ⟨le_refl _, le_refl _⟩
      · simp [progressDownloads]
      · intro s hs
        simp [progressStatuses] at hs
        subst hs
        decide
    | ok u =>
      have hstInv : TraceInv
          { directPhase p o st |>.2 with
            cache := updateCache (directPhase p o st).2.cache p.index f,
            trace := (directPhase p o st).2.trace ++ [Act.relayAttempt p.index] } := by
        show TInv ((directPhase p o st).2.trace ++ [Act.relayAttempt p.index])
          (directPhase p o st).2.downloaded
        rw [hdd]
        exact h1
      have h := afterFetch_inv tot p o _ hstInv
      refine ⟨h.1, le_trans (le_of_eq hdd.symm) h.2.1, le_trans h.2.2 ?_⟩
      show (directPhase p o st).2.downloaded + p.size ≤ st.downloaded + p.size
      omega

theorem runIter_inv (tot : Option Nat) (p : PartInfo) (o : IterOracle) (st : DriverState)
    (hInv : TraceInv st) :
    TraceInv (runIter tot p o st).state ∧
    st.downloaded ≤ (runIter tot p o st).state.downloaded ∧
    (runIter tot p o st).state.downloaded ≤ st.downloaded + p.size := by
  unfold runIter
  by_cases hc : o.cancelTop
  · rw [if_pos hc]
    refine ⟨?_, le_refl _, Nat.le_add_right _ _⟩
    show TInv (st.trace ++ [Act.progress st.downloaded tot 0 "paused", Act.setStatus "paused"])
      st.downloaded
    refine tinv_extend hInv _ _ (le_refl _) ?_ ?_ ?_
    · intro v hv'
      simp [progressDownloads] at hv'
      subst hv'
      exact ⟨le_refl _, le_refl _⟩
    · simp [progressDownloads]
    · intro s hs
      simp [progressStatuses] at hs
      subst hs
      decide
  · rw [if_neg hc]
    by_cases hvf : verifiedOk (verify_part_hash (st.cache p.index) o.cacheReadErr p.hash)
    · rw [if_pos hvf]
      refine ⟨?_, Nat.le_add_right _ _, le_refl _⟩
      show TInv (st.trace ++ [Act.cachedReuse p.index]) (st.downloaded + p.size)
      refine tinv_extend hInv _ _ (Nat.le_add_right _ _) ?_ ?_ ?_
      · intro v hv'
        simp [progressDownloads] at hv'
      · simp [progressDownloads]
      · intro s hs
        simp [progressStatuses] at hs
    · rw [if_neg hvf]
      exact fetchPhase_inv tot p o st hInv

theorem partsSum_cons (p : PartInfo) (l : List PartInfo) :
    partsSum (p :: l) = p.size + partsSum l := by
  simp [partsSum]

theorem partsSum_sortByIndex (l : List PartInfo) : partsSum (sortByIndex l) = partsSum l := by
  unfold partsSum sortByIndex
  exact List.Perm.sum_eq (List.Perm.map _ (List.perm_insertionSort _ l))

theorem runLoop_inv (tot : Option Nat) : ∀ (parts : List PartInfo) (os : List IterOracle)
    (st : DriverState), TraceInv st →
    TraceInv (runLoop tot parts os st).1 ∧
    st.downloaded ≤ (runLoop tot parts os st).1.downloaded ∧
    (runLoop tot parts os st).1.downloaded ≤ st.downloaded + partsSum parts := by
  intro parts
  induction parts with
  | nil =>
    intro os st h
    exact ⟨h, le_refl _, by simp [partsSum, runLoop]⟩
  | cons p rest ih =>
    intro os st h
    have hi := runIter_inv tot p (os.headD defaultOracle) st h
    unfold runLoop
    cases hit : runIter tot p (os.headD defaultOracle) st with
    | stop st' s =>
      rw [hit] at hi
      simp only [IterResult.state] at hi
      simp only []
      rw [partsSum_cons]
      exact ⟨hi.1, hi.2.1, by have := hi.2.2; omega⟩
    | next st' =>
      rw [hit] at hi
      simp only [IterResult.state] at hi
      simp only []
      have hrec := ih os.tail st' hi.1
      rw [partsSum_cons]
      refine ⟨hrec.1, le_trans hi.2.1 hrec.2.1, ?_⟩
      have h1 := hi.2.2
      have h2 := hrec.2.2
      omega

theorem start_archive_download_spec (P : Prims) (resp : PartsResponse) (mk : String)
    (fidx : Option Nat) (sname id aid : String) (os : List IterOracle) (t0 : Nat)
    (cache0 : Nat → Option (List Nat)) (fs0 : FS) :
    (start_archive_download P resp mk fidx sname id aid os t0 cache0 fs0).registered.status =
      "queued" ∧
    TInv (start_archive_download P resp mk fidx sname id aid os t0 cache0 fs0).trace
      (start_archive_download P resp mk fidx sname id aid os t0 cache0 fs0).downloaded ∧
    (start_archive_download P resp mk fidx sname id aid os t0 cache0 fs0).downloaded ≤
      partsSum resp.parts := by
  have h0 : TraceInv (⟨0, true, t0, cache0, []⟩ : DriverState) := by
    refine ⟨by simp [progressDownloads], ?_, ?_⟩
    · intro v hv
      simp [progressDownloads] at hv
    · intro s hs
      simp [progressStatuses] at hs
  have hl := runLoop_inv (resp.originalSize.or resp.encryptedSize) (sortByIndex resp.parts) os
    (⟨0, true, t0, cache0, []⟩ : DriverState) h0
  rw [partsSum_sortByIndex] at hl
  unfold start_archive_download
  simp only []
  rcases hr : runLoop (resp.originalSize.or resp.encryptedSize) (sortByIndex resp.parts) os
    (⟨0, true, t0, cache0, []⟩ : DriverState) with ⟨st, fin⟩
  rw [hr] at hl
  simp only [] at hl
  cases fin with
  | some s =>
    simp only []
    exact ⟨trivial, hl.1, by have := hl.2.2; omega⟩
  | none =>
    simp only []
    rcases hdec : decrypt_parts P resp st.cache mk fidx fs0 with ⟨res, fs'⟩
    have hext : ∀ status, status ∈ (["downloading", "paused", "error", "completed"] : List String) →
        TInv (st.trace ++ [Act.progress st.downloaded (resp.originalSize.or resp.encryptedSize) 0
          status, Act.setStatus status]) st.downloaded := by
      intro status hstat
      refine tinv_extend hl.1 _ _ (le_refl _) ?_ ?_ ?_
      · intro v hv
        simp [progressDownloads] at hv
        subst hv
        exact ⟨le_refl _, le_refl _⟩
      · simp [progressDownloads]
      · intro s hs
        simp [progressStatuses] at hs
        subst hs
        exact hstat
    cases res with
    | error e =>
      simp only []
      exact ⟨trivial, hext "error" (by decide), by have := hl.2.2; omega⟩
    | ok u =>
      simp only []
      exact ⟨trivial, hext "completed" (by decide), by have := hl.2.2; omega⟩

theorem directPhase_ok_discord (p : PartInfo) (o : IterOracle) (st : DriverState)
    (h : (directPhase p o st).1 = true) : (directPhase p o st).2.discordOk = true := by
  unfold directPhase at h ⊢
  by_cases hs : shouldTryDirect o st
  · rw [if_pos hs] at h ⊢
    rcases hd1 : download_part_direct o.direct1 o.direct1Cancels (st.cache p.index) with ⟨r1, f1⟩
    cases r1 with
    | ok u => simp [hd1]
    | error e =>
      by_cases he : e = "expired"
      · cases hrf : o.refresh with
        | ok url =>
          rcases hd2 : download_part_direct o.direct2 o.direct2Cancels
              (updateCache st.cache p.index f1 p.index) with ⟨r2, f2⟩
          cases r2 with
          | ok u2 => simp [hd1, hrf, hd2, he]
          | error e2 => simp [hd1, hrf, hd2, he] at h
        | error e2 => simp [hd1, hrf, he] at h
      · simp [hd1, he] at h
  · rw [if_neg hs] at h
    simp at h

theorem directPhase_skip (p : PartInfo) (o : IterOracle) (st : DriverState)
    (hs : shouldTryDirect o st = false) : directPhase p o st = (false, st) := by
  unfold directPhase
  rw [if_neg (by simp [hs])]

theorem directPhase_fail_backoff (p : PartInfo) (o : IterOracle) (st : DriverState)
    (hs : shouldTryDirect o st = true) (h : (directPhase p o st).1 = false) :
    (directPhase p o st).2.discordOk = false ∧
    (directPhase p o st).2.nextDirectCheck = o.nowFail + 300 := by
  unfold directPhase at h ⊢
  rw [if_pos hs] at h ⊢
  rcases hd1 : download_part_direct o.direct1 o.direct1Cancels (st.cache p.index) with ⟨r1, f1⟩
  cases r1 with
  | ok u => simp [hd1] at h
  | error e =>
    by_cases he : e = "expired"
    · cases hrf : o.refresh with
      | ok url =>
        rcases hd2 : download_part_direct o.direct2 o.direct2Cancels
            (updateCache st.cache p.index f1 p.index) with ⟨r2, f2⟩
        cases r2 with
        | ok u2 => simp [hd1, hrf, hd2, he] at h
        | error e2 => simp [hd1, hrf, hd2, he]
      | error e2 => simp [hd1, hrf, he]
    · simp [hd1, he]

theorem afterFetch_policy (tot : Option Nat) (p : PartInfo) (o : IterOracle) (st : DriverState) :
    (afterFetch tot p o st).state.discordOk = st.discordOk ∧
    (afterFetch tot p o st).state.nextDirectCheck = st.nextDirectCheck := by
  unfold afterFetch
  by_cases hv : verifiedMismatch (verify_part_hash (st.cache p.index) o.fetchReadErr p.hash)
  · rw [if_pos hv]
    exact ⟨rfl, rfl⟩
  · rw [if_neg hv]
    by_cases ht : o.tick
    · rw [if_pos ht]
      exact ⟨rfl, rfl⟩
    · rw [if_neg ht]
      exact ⟨rfl, rfl⟩

/-- C3 (amended/corrected): cancellation observed at the top of the part
loop makes the task stop with status `paused` and a `paused` progress
event.  Cancellation observed *during* a fetch surfaces only as a fetch
error: an aborted direct fetch falls through to the relay path, and any
relay failure (including `cancelled`) terminates the task with status
`error`, not `paused` (see the counterexample). -/
theorem cancel_observed_behavior :
    (∀ (tot : Option Nat) (p : PartInfo) (o : IterOracle) (st : DriverState),
      o.cancelTop = true →
      runIter tot p o st = .stop { st with trace := st.trace ++
        [Act.progress st.downloaded tot 0 "paused", Act.setStatus "paused"] } "paused") ∧
    (∀ (tot : Option Nat) (p : PartInfo) (o : IterOracle) (st : DriverState) (e : String)
      (f : Option (List Nat)),
      o.cancelTop = false →
      verifiedOk (verify_part_hash (st.cache p.index) o.cacheReadErr p.hash) = false →
      (directPhase p o st).1 = false →
      download_part_relay o.relay o.relayCancels ((directPhase p o st).2.cache p.index) =
        (.error e, f) →
      ∃ st', runIter tot p o st = .stop st' "error" ∧ Act.setStatus "error" ∈ st'.trace) := by
  constructor
  · intro tot p o st hc
    unfold runIter
    rw [if_pos hc]
  · intro tot p o st e f hc hv hd hrel
    unfold runIter fetchPhase
    rw [if_neg (by simp [hc]), if_neg (by simp [hv])]
    simp only []
    rw [if_neg (by simp [hd]), hrel]
    simp only []
    exact ⟨_, rfl, by simp⟩

/-- Witness for C3: the paused case at a concrete state, and the concrete
relay-cancelled case ending in `error`. -/
theorem cancel_observed_behavior_witness :
    runIter none c3Part { c3Oracle with cancelTop := true } st0Empty =
      .stop { st0Empty with trace := [Act.progress 0 none 0 "paused", Act.setStatus "paused"] }
        "paused" ∧
    (∃ st', runIter none c3Part c3Oracle st0Empty = .stop st' "error" ∧
      Act.setStatus "error" ∈ st'.trace) :=
  ⟨cancel_observed_behavior.1 none c3Part { c3Oracle with cancelTop := true } st0Empty rfl,
   cancel_observed_behavior.2 none c3Part c3Oracle st0Empty "cancelled" (some []) rfl rfl rfl rfl⟩

set_option maxRecDepth 40000 in
/-- Counterexample to C3 as stated: with the cancellation flag raised
during the direct fetch (aborting it with `cancelled`) and still raised
during the relay fallback, the task terminates with status `error` and no
`paused` event is ever emitted. -/
theorem cancel_during_fetch_not_paused_cex :
    c3Run.finalStatus = "error" ∧
    c3Run.trace = [Act.directAttempt 0, Act.relayAttempt 0,
      Act.progress 0 none 0 "error", Act.setStatus "error"] ∧
    "paused" ∉ progressStatuses c3Run.trace ∧
    (download_part_direct c3Oracle.direct1 c3Oracle.direct1Cancels none).1 =
      .error "cancelled" ∧
    (download_part_relay c3Oracle.relay c3Oracle.relayCancels (some [])).1 =
      .error "cancelled" := by
  exact ⟨by decide, by decide, by decide, rfl, rfl⟩

/-- C4 (amended/corrected): acceptance of a part file never involves its
byte length, only `verify_part_hash`.  At the top of the loop the cached
part is reused iff verification returns `Ok true` — iff the file exists,
reads without I/O error, and its SHA-256 hex digest equals the manifest
hash — and otherwise the part is fetched.  After a fetch the part is
rejected (status `error`) iff verification returns `Ok false` — the file
is missing, or it reads cleanly and the digest mismatches; when reading
the fetched file fails the `Err` is silently ignored (`if let Ok(valid)`)
and the part is accepted with no digest check.  (See the counterexample
for the length half of the claim as stated.) -/
theorem cached_accept_hash_only :
    (∀ (tot : Option Nat) (p : PartInfo) (o : IterOracle) (st : DriverState),
      o.cancelTop = false →
      (verifiedOk (verify_part_hash (st.cache p.index) o.cacheReadErr p.hash) = true →
        runIter tot p o st = .next { st with downloaded := st.downloaded + p.size, trace := st.trace ++ [Act.cachedReuse p.index] }) ∧
      (verifiedOk (verify_part_hash (st.cache p.index) o.cacheReadErr p.hash) = false →
        runIter tot p o st = fetchPhase tot p o st)) ∧
    (∀ (file : Option (List Nat)) (re : Option String) (hash : String),
      verifiedOk (verify_part_hash file re hash) = true ↔
        ∃ b, file = some b ∧ re = none ∧ sha256Hex b = hash) ∧
    (∀ (tot : Option Nat) (p : PartInfo) (o : IterOracle) (st : DriverState),
      (verifiedMismatch (verify_part_hash (st.cache p.index) o.fetchReadErr p.hash) = true →
        afterFetch tot p o st = .stop { st with trace := st.trace ++ [Act.progress st.downloaded tot 0 "error", Act.setStatus "error"] } "error") ∧
      (verifiedMismatch (verify_part_hash (st.cache p.index) o.fetchReadErr p.hash) = false →
        (afterFetch tot p o st).isNext = true ∧
        (afterFetch tot p o st).state.downloaded = st.downloaded + p.size)) ∧
    (∀ (file : Option (List Nat)) (re : Option String) (hash : String),
      verifiedMismatch (verify_part_hash file re hash) = true ↔
        (file = none ∨ ∃ b, file = some b ∧ re = none ∧ sha256Hex b ≠ hash)) := by
  refine ⟨?_, ?_, ?_, ?_⟩
  · intro tot p o st hc
    constructor
    · intro hv
      unfold runIter
      rw [if_neg (by simp [hc]), if_pos hv]
    · intro hv
      unfold runIter
      rw [if_neg (by simp [hc]), if_neg (by simp [hv])]
  · intro file re hash
    cases file with
    | none => simp [verify_part_hash, verifiedOk]
    | some b =>
      cases re with
      | none => simp [verify_part_hash, verifiedOk]
      | some e => simp [verify_part_hash, verifiedOk]
  · intro tot p o st
    constructor
    · intro hv
      unfold afterFetch
      rw [if_pos hv]
    · intro hv
      unfold afterFetch
      rw [if_neg (by simp [hv])]
      simp only []
      by_cases ht : o.tick
      · rw [if_pos ht]
        exact ⟨rfl, rfl⟩
      · rw [if_neg ht]
        exact ⟨rfl, rfl⟩
  · intro file re hash
    cases file with
    | none => simp [verify_part_hash, verifiedMismatch]
    | some b =>
      cases re with
      | none => simp [verify_part_hash, verifiedMismatch]
      | some e => simp [verify_part_hash, verifiedMismatch]

set_option maxRecDepth 40000 in
/-- Witness for C4: reuse of a concretely cached part whose digest
matches; a part with no cached file goes to the fetch path; the
digest-only reuse condition at a concrete file; and post-fetch acceptance
of a concrete part whose re-verification read fails. -/
theorem cached_accept_hash_only_witness :
    runIter none c4Part defaultOracle c4State =
      .next { c4State with downloaded := 5, trace := [Act.cachedReuse 0] } ∧
    runIter none c4Part defaultOracle st0Empty = fetchPhase none c4Part defaultOracle st0Empty ∧
    verifiedOk (verify_part_hash (some [97, 98, 99]) none (sha256Hex [97, 98, 99])) = true ∧
    ((afterFetch none c4Part c4ErrOracle c4FetchState).isNext = true ∧
      (afterFetch none c4Part c4ErrOracle c4FetchState).state.downloaded =
        c4FetchState.downloaded + c4Part.size) ∧
    verifiedMismatch (verify_part_hash (some [1, 2, 3]) none c4Part.hash) = true :=
  ⟨(cached_accept_hash_only.1 none c4Part defaultOracle c4State rfl).1 rfl,
   (cached_accept_hash_only.1 none c4Part defaultOracle st0Empty rfl).2 rfl,
   (cached_accept_hash_only.2.1 (some [97, 98, 99]) none (sha256Hex [97, 98, 99])).mpr
     ⟨[97, 98, 99], rfl, rfl, rfl⟩,
   (cached_accept_hash_only.2.2.1 none c4Part c4ErrOracle c4FetchState).2 rfl,
   (cached_accept_hash_only.2.2.2 (some [1, 2, 3]) none c4Part.hash).mpr
     (Or.inr ⟨[1, 2, 3], rfl, rfl, by decide⟩)⟩

set_option maxRecDepth 40000 in
/-- Counterexample to C4 as stated: a cached 3-byte file whose SHA-256
matches the manifest hash is accepted (reused) although its length 3
differs from the manifest `size` 5; and a fetched file whose digest does
*not* match the manifest hash is accepted when re-reading it fails with
an I/O error. -/
theorem cached_accept_ignores_length_cex :
    c4Iter.isNext = true ∧
    Act.cachedReuse c4Part.index ∈ c4Iter.state.trace ∧
    c4State.cache c4Part.index = some [97, 98, 99] ∧
    ([97, 98, 99] : List Nat).length ≠ c4Part.size ∧
    ((afterFetch none c4Part c4ErrOracle c4FetchState).isNext = true ∧
      c4FetchState.cache c4Part.index = some [1, 2, 3] ∧
      sha256Hex [1, 2, 3] ≠ c4Part.hash) := by
  exact ⟨by decide, by decide, by decide, by decide, by decide, by decide, by decide⟩

/-- C5 (amended/corrected): only a *direct* success moves the machine to
PREFER_DIRECT (`discord_ok := true`).  When the direct guard is off the
direct fetch is skipped entirely; when a direct attempt fails the machine
enters PREFER_RELAY with `next_direct_check = now + 300 s`; and a part
fetched successfully via relay leaves `discord_ok` and
`next_direct_check` exactly as the failed direct phase left them, so the
next part attempts direct only once `now ≥ next_direct_check` (see the
counterexample for the claim as stated). -/
theorem direct_relay_policy :
    (∀ (p : PartInfo) (o : IterOracle) (st : DriverState),
      (directPhase p o st).1 = true → (directPhase p o st).2.discordOk = true) ∧
    (∀ (p : PartInfo) (o : IterOracle) (st : DriverState),
      shouldTryDirect o st = false → directPhase p o st = (false, st)) ∧
    (∀ (p : PartInfo) (o : IterOracle) (st : DriverState),
      shouldTryDirect o st = true → (directPhase p o st).1 = false →
      (directPhase p o st).2.discordOk = false ∧
      (directPhase p o st).2.nextDirectCheck = o.nowFail + 300) ∧
    (∀ (tot : Option Nat) (p : PartInfo) (o : IterOracle) (st : DriverState)
      (f : Option (List Nat)),
      o.cancelTop = false →
      verifiedOk (verify_part_hash (st.cache p.index) o.cacheReadErr p.hash) = false →
      (directPhase p o st).1 = false →
      download_part_relay o.relay o.relayCancels ((directPhase p o st).2.cache p.index) =
        (.ok (), f) →
      (runIter tot p o st).state.discordOk = (directPhase p o st).2.discordOk ∧
      (runIter tot p o st).state.nextDirectCheck = (directPhase p o st).2.nextDirectCheck) := by
  refine ⟨directPhase_ok_discord, directPhase_skip, directPhase_fail_backoff, ?_⟩
  intro tot p o st f hc hv hd hrel
  unfold runIter fetchPhase
  rw [if_neg (by simp [hc]), if_neg (by simp [hv])]
  simp only []
  rw [if_neg (by simp [hd]), hrel]
  simp only []
  have := afterFetch_policy tot p o
    { directPhase p o st |>.2 with
      cache := updateCache (directPhase p o st).2.cache p.index f,
      trace := (directPhase p o st).2.trace ++ [Act.relayAttempt p.index] }
  exact this

/-- Witness for C5: the four policy facts at concrete states (direct
success, guard off, direct failure with back-off, relay-only success). -/
theorem direct_relay_policy_witness :
    (directPhase c9Part c9Oracle st0Empty).2.discordOk = true ∧
    directPhase c5Part1 c5Oracle1 c5StateRelay = (false, c5StateRelay) ∧
    ((directPhase c5Part0 c5Oracle0 st0Empty).2.discordOk = false ∧
      (directPhase c5Part0 c5Oracle0 st0Empty).2.nextDirectCheck = 300) ∧
    ((runIter none c5Part0 c5Oracle0 st0Empty).state.discordOk =
        (directPhase c5Part0 c5Oracle0 st0Empty).2.discordOk ∧
      (runIter none c5Part0 c5Oracle0 st0Empty).state.nextDirectCheck =
        (directPhase c5Part0 c5Oracle0 st0Empty).2.nextDirectCheck) :=
  ⟨direct_relay_policy.1 c9Part c9Oracle st0Empty rfl,
   direct_relay_policy.2.1 c5Part1 c5Oracle1 c5StateRelay rfl,
   direct_relay_policy.2.2.1 c5Part0 c5Oracle0 st0Empty rfl rfl,
   direct_relay_policy.2.2.2 none c5Part0 c5Oracle0 st0Empty (some [7]) rfl rfl rfl rfl⟩

set_option maxRecDepth 40000 in
/-- Counterexample to C5 as stated: part 0 is fetched successfully via
the relay after its direct attempt failed, yet the next part does not
begin with a direct attempt — the machine stayed in PREFER_RELAY with the
back-off armed, so part 1 goes straight to the relay. -/
theorem relay_success_keeps_relay_cex :
    c5Run.finalStatus = "completed" ∧
    Act.directAttempt 0 ∈ c5Run.trace ∧
    Act.relayAttempt 0 ∈ c5Run.trace ∧
    Act.relayAttempt 1 ∈ c5Run.trace ∧
    Act.directAttempt 1 ∉ c5Run.trace := by
  exact ⟨by decide, by decide, by decide, by decide, by decide⟩

/-- C8: within one task the `downloaded` values of successive progress
events are non-decreasing, and the driver's cumulative downloaded-bytes
counter never exceeds the sum of the manifest's part sizes. -/
theorem progress_monotone_bounded (P : Prims) (resp : PartsResponse) (mk : String)
    (fidx : Option Nat) (sname id aid : String) (os : List IterOracle) (t0 : Nat)
    (cache0 : Nat → Option (List Nat)) (fs0 : FS) :
    List.Chain' (· ≤ ·) (progressDownloads
      (start_archive_download P resp mk fidx sname id aid os t0 cache0 fs0).trace) ∧
    (start_archive_download P resp mk fidx sname id aid os t0 cache0 fs0).downloaded ≤
      partsSum resp.parts := by
  have h := start_archive_download_spec P resp mk fidx sname id aid os t0 cache0 fs0
  exact ⟨h.2.1.1, h.2.2⟩

/-- C9 (amended/corrected): `start_archive_download` registers the task
record with status `queued`, but no initial `queued` progress event is
emitted — no progress event of the task ever carries status `queued`
(the first event is `downloading`, `paused`, `error` or `completed`).
See the counterexample for the claim as stated. -/
theorem queued_registration_no_queued_event (P : Prims) (resp : PartsResponse) (mk : String)
    (fidx : Option Nat) (sname id aid : String) (os : List IterOracle) (t0 : Nat)
    (cache0 : Nat → Option (List Nat)) (fs0 : FS) :
    (start_archive_download P resp mk fidx sname id aid os t0 cache0 fs0).registered.status =
      "queued" ∧
    ∀ s ∈ progressStatuses
      (start_archive_download P resp mk fidx sname id aid os t0 cache0 fs0).trace,
      s ≠ "queued" := by
  have h := start_archive_download_spec P resp mk fidx sname id aid os t0 cache0 fs0
  refine ⟨h.1, ?_⟩
  intro s hs hq
  subst hq
  exact absurd (h.2.1.2.2 _ hs) (by decide)

set_option maxRecDepth 40000 in
/-- Witness for C9 at the concrete successful single-part run. -/
theorem queued_registration_no_queued_event_witness :
    c9Run.registered.status = "queued" ∧ "downloading" ≠ "queued" :=
  ⟨(queued_registration_no_queued_event zeroPrims
      { iv := "IV", authTag := "TAG", parts := [c9Part] } "mk" none "n" "id" "a" [c9Oracle] 0
      (fun _ => none) { tmp := none, out := none }).1,
   (queued_registration_no_queued_event zeroPrims
      { iv := "IV", authTag := "TAG", parts := [c9Part] } "mk" none "n" "id" "a" [c9Oracle] 0
      (fun _ => none) { tmp := none, out := none }).2 "downloading" (by decide)⟩

set_option maxRecDepth 40000 in
/-- Counterexample to C9 as stated: in a run that fetches a part and
completes, the emitted progress statuses are `downloading` then
`completed` — no `queued` progress event is ever emitted, although the
task record is registered with status `queued`. -/
theorem no_initial_queued_event_cex :
    Act.directAttempt 0 ∈ c9Run.trace ∧
    progressStatuses c9Run.trace = ["downloading", "completed"] ∧
    "queued" ∉ progressStatuses c9Run.trace ∧
    c9Run.registered.status = "queued" := by
  exact ⟨by decide, by decide, by decide, by decide⟩
